import Mathlib

/-!
Verification of the `reg_normalizer` package (`reg_normalizer/regions_validator.py`)
against its natural-language specification.

Strings are modelled as lists of Unicode code points (`Str := List Nat`), which
makes Python's character-level operations (case folding of Cyrillic, dash and
whitespace handling) directly expressible.  Python floats are modelled by exact
rationals: every scorer value reachable with the default weights is a dyadic
rational, represented exactly by both models.  Fallible code is modelled with
`Except` (the unbound-local `NameError` reachable in `find_best_match`), and the
diagnostic `print` is modelled as an explicit list of emitted observations.

External collaborators are embedded from their published behaviour:
`fuzzywuzzy.fuzz.ratio` / `token_set_ratio` (python-Levenshtein backend:
similarity `2*LCS/(len1+len2)`, rounded half-to-even, with fuzzywuzzy's
`check_for_equivalence` / `check_empty_string` decorators and `full_process`),
and NLTK's Snowball Russian stemmer (suffix stripping inside the RV region).
-/

abbrev Str := List Nat

/-- Code point of a character, used to write the source's literal tables. -/
def rc (c : Char) : Nat := c.toNat

/-- Code points of a Lean string literal, used to transcribe the source's strings. -/
def strToCodes (s : String) : Str := s.data.map (fun c => c.toNat)

/-- Characters matched by Python's `\s` (and stripped by `str.strip()`):
the code points for which `str.isspace()` holds. -/
def wsNats : List Nat :=
  [9, 10, 11, 12, 13, 28, 29, 30, 31, 32, 133, 160, 5760,
   8192, 8193, 8194, 8195, 8196, 8197, 8198, 8199, 8200, 8201, 8202,
   8232, 8233, 8239, 8287, 12288]

def isWsChar (c : Nat) : Bool := decide (c ∈ wsNats)

/-- The dash characters of the source's regex `[-–—]+`. -/
def isDashChar (c : Nat) : Bool := decide (c = 45 ∨ c = 8211 ∨ c = 8212)

/-- Python's `str.lower()` on the code points this development reasons about:
ASCII letters, the Latin-1 uppercase range À..Þ (the multiplication sign `×`
is not a letter and stays), Ÿ, the Cyrillic block (А..Я, and Ѐ..Џ which
contains Ё, І, Ј), and the singleton sign mappings KELVIN SIGN → `k` and
ANGSTROM SIGN → `å`.  This covers in particular every single character whose
lowercase form is a key of `LATIN_TO_CYRILLIC` (only KELVIN SIGN and the
letters already in the ranges).  Code points of other case-carrying scripts,
and one-to-many lowercasings such as İ → i followed by a combining dot, are
outside the model and left unchanged. -/
def toLowerNat (c : Nat) : Nat :=
  if 65 ≤ c ∧ c ≤ 90 then c + 32
  else if 192 ≤ c ∧ c ≤ 222 ∧ c ≠ 215 then c + 32
  else if c = 376 then 255
  else if 1040 ≤ c ∧ c ≤ 1071 then c + 32
  else if 1024 ≤ c ∧ c ≤ 1039 then c + 80
  else if c = 8490 then 107
  else if c = 8491 then 229
  else c

/-- The module constant `LATIN_TO_CYRILLIC` of `regions_validator.py`. -/
def LATIN_TO_CYRILLIC : List (Nat × Nat) :=
  [(rc 'A', rc 'А'), (rc 'B', rc 'В'), (rc 'C', rc 'С'), (rc 'E', rc 'Е'), (rc 'H', rc 'Н'),
   (rc 'I', rc 'І'), (rc 'J', rc 'Ј'), (rc 'K', rc 'К'), (rc 'M', rc 'М'), (rc 'O', rc 'О'),
   (rc 'P', rc 'Р'), (rc 'S', rc 'С'), (rc 'T', rc 'Т'), (rc 'X', rc 'Х'), (rc 'Y', rc 'У'),
   (rc 'a', rc 'а'), (rc 'b', rc 'в'), (rc 'c', rc 'с'), (rc 'e', rc 'е'), (rc 'i', rc 'і'),
   (rc 'j', rc 'ј'), (rc 'k', rc 'к'), (rc 'm', rc 'м'), (rc 'o', rc 'о'), (rc 'p', rc 'р'),
   (rc 's', rc 'с'), (rc 't', rc 'т'), (rc 'x', rc 'х'), (rc 'y', rc 'у')]

/-- One `str.replace(latin, cyrillic)` call: every occurrence of the single
character `k` becomes `v`. -/
def replaceAll (k v : Nat) (s : Str) : Str := s.map (fun c => if c = k then v else c)

/-- The loop `for latin, cyrillic in LATIN_TO_CYRILLIC.items(): name = name.replace(...)`:
the replacements applied sequentially in table order. -/
def applyLatinTable (t : List (Nat × Nat)) (s : Str) : Str :=
  t.foldl (fun acc p => replaceAll p.1 p.2 acc) s

/-- The simultaneous character map induced by the table (first matching key wins). -/
def latinMap (c : Nat) : Nat := (LATIN_TO_CYRILLIC.lookup c).getD c

/-- Auxiliary scanner for `re.sub(r'X+', ' ', s)`: each maximal run of characters
satisfying `p` is replaced by a single space.  `inRun` records whether the scanner
stands inside a run whose space was already emitted. -/
def collapseRunAux (p : Nat → Bool) : Bool → Str → Str
  | _, [] => []
  | inRun, c :: cs =>
    if p c then
      if inRun then collapseRunAux p true cs else 32 :: collapseRunAux p true cs
    else c :: collapseRunAux p false cs

/-- `re.sub` of a character-class run by a single space. -/
def collapseRun (p : Nat → Bool) (s : Str) : Str := collapseRunAux p false s

def dropLeadWs (s : Str) : Str := s.dropWhile (fun c => isWsChar c)

/-- Python's `str.strip()`: leading and trailing whitespace removed. -/
def stripStr (s : Str) : Str :=
  ((dropLeadWs s).reverse.dropWhile (fun c => isWsChar c)).reverse

/-- Python's `str.lower()`. -/
def lowerStr (s : Str) : Str := s.map toLowerNat

/-- Python's substring test `w in s`: some suffix of `s` starts with `w`. -/
def occursIn (w : Str) : Str → Bool
  | [] => w.isEmpty
  | c :: cs => w.isPrefixOf (c :: cs) || occursIn w cs

/-- `s.partition(w)[0]`: the part of `s` strictly before the first occurrence of
`w`, and `s` itself when `w` does not occur. -/
def prefixBefore (w : Str) : Str → Str
  | [] => []
  | c :: cs => if w.isPrefixOf (c :: cs) then [] else c :: prefixBefore w cs

/-- One iteration of the `for word in EXTRA_DATA` loop body:
`if word in name: name = name.partition(word)[0].strip()`. -/
def stepExtra (s w : Str) : Str := if occursIn w s then stripStr (prefixBefore w s) else s

/-- The whole `for word in EXTRA_DATA` loop (no early exit in the source). -/
def stripExtra (ws : List Str) (s : Str) : Str := ws.foldl stepExtra s

/-- The module constant `EXTRA_DATA` of `regions_validator.py`. -/
def EXTRA_DATA : List Str :=
  [strToCodes "в границах", strToCodes "после",
   strToCodes "без учета новых субъектов (с 01.01.2023)",
   strToCodes "(по 2009 год)", strToCodes "(с 2010 года)", strToCodes "(с 29.07.2016)",
   strToCodes "(без АО)", strToCodes "(с 03.11.2018)"]

/-- `RegionMatcher.preprocess_name` on string input: Latin→Cyrillic replacement,
dash runs to a space, whitespace runs to a space, strip, lowercase, then the
`EXTRA_DATA` truncation loop. -/
def preprocessStr (s : Str) : Str :=
  stripExtra EXTRA_DATA
    (lowerStr (stripStr (collapseRun isWsChar (collapseRun isDashChar
      (applyLatinTable LATIN_TO_CYRILLIC s)))))

/-- A Python value as far as this program inspects one: a string, `None`, or a
number (`isinstance(x, str)` is `False` for the latter two). -/
inductive PyVal where
  | pyStr (s : Str)
  | pyNone
  | pyRat (q : ℚ)
deriving DecidableEq

/-- `RegionMatcher.preprocess_name`: non-string input returns the empty string. -/
def preprocess_name (v : PyVal) : Str :=
  match v with
  | .pyStr s => preprocessStr s
  | _ => []

example : preprocessStr (strToCodes "Mосковская  Область") = strToCodes "московская область" := by
  decide

example : preprocessStr (strToCodes "Тюменская область (без АО)") = strToCodes "тюменская область (без ао)" := by
  decide

/-- Vowels of the Snowball Russian stemmer. -/
def isVowelNat (c : Nat) : Bool :=
  c == rc 'а' || c == rc 'е' || c == rc 'и' || c == rc 'о' || c == rc 'у' ||
  c == rc 'ы' || c == rc 'э' || c == rc 'ю' || c == rc 'я'

/-- Index just after the first vowel (`|w|` when there is none): the start of
the RV region. -/
def rvPosOf : Str → Nat
  | [] => 0
  | c :: cs => if isVowelNat c then 1 else 1 + rvPosOf cs

/-- Relative start of the R1 region: just after the first vowel that is
followed by a non-vowel. -/
def r1PosFrom : Str → Nat
  | [] => 0
  | [_] => 1
  | c1 :: c2 :: rest =>
    if isVowelNat c1 && !isVowelNat c2 then 2 else 1 + r1PosFrom (c2 :: rest)

/-- Start of the R2 region: R1 computed again inside the R1 region. -/
def r2PosOf (w : Str) : Nat :=
  let r1 := r1PosFrom w
  r1 + r1PosFrom (w.drop r1)

/-- Whether `suf` is a suffix of `w` lying entirely inside the region that
starts at `regionPos`. -/
def endsWithIn (w : Str) (regionPos : Nat) (suf : Str) : Bool :=
  suf.isSuffixOf w && decide (regionPos + suf.length ≤ w.length)

/-- A stemmer ending: the letters to delete, and whether the ending must be
preceded by `а` or `я` (the group-1 endings of the algorithm). -/
structure StemSuf where
  del : Str
  needAYa : Bool
deriving DecidableEq

def sfx (s : String) : StemSuf := ⟨strToCodes s, false⟩

def sfxA (s : String) : StemSuf := ⟨strToCodes s, true⟩

def sufApplies (w : Str) (rvp : Nat) (s : StemSuf) : Bool :=
  if s.needAYa then
    endsWithIn w rvp (rc 'а' :: s.del) || endsWithIn w rvp (rc 'я' :: s.del)
  else endsWithIn w rvp s.del

/-- First applicable ending of the list (the lists are ordered longest first,
matching the algorithm's longest-match rule) stripped from the end of `w`. -/
def tryStrip (w : Str) (rvp : Nat) : List StemSuf → Option Str
  | [] => none
  | s :: rest =>
    if sufApplies w rvp s then some (w.take (w.length - s.del.length))
    else tryStrip w rvp rest

def PERFECTIVE_GERUND_SUFFIXES : List StemSuf :=
  [sfx "ившись", sfx "ывшись", sfxA "вшись", sfx "ивши", sfx "ывши",
   sfxA "вши", sfx "ив", sfx "ыв", sfxA "в"]

def REFLEXIVE_SUFFIXES : List StemSuf := [sfx "ся", sfx "сь"]

def ADJECTIVE_SUFFIXES : List StemSuf :=
  [sfx "ими", sfx "ыми", sfx "его", sfx "ого", sfx "ему", sfx "ому",
   sfx "ее", sfx "ие", sfx "ые", sfx "ое", sfx "ей", sfx "ий", sfx "ый", sfx "ой",
   sfx "ем", sfx "им", sfx "ым", sfx "ом", sfx "их", sfx "ых", sfx "ую", sfx "юю",
   sfx "ая", sfx "яя", sfx "ою", sfx "ею"]

def PARTICIPLE_SUFFIXES : List StemSuf :=
  [sfx "ивш", sfx "ывш", sfx "ующ", sfxA "ем", sfxA "нн", sfxA "вш", sfxA "ющ", sfxA "щ"]

def VERB_SUFFIXES : List StemSuf :=
  [sfx "ейте", sfx "уйте",
   sfx "ила", sfx "ыла", sfx "ена", sfx "ите", sfx "или", sfx "ыли", sfx "ило",
   sfx "ыло", sfx "ено", sfx "ует", sfx "уют", sfx "ить", sfx "ыть", sfx "ишь",
   sfxA "ешь", sfxA "нно", sfxA "ете", sfxA "йте",
   sfxA "ла", sfxA "на", sfxA "ли", sfxA "ем", sfxA "ло", sfxA "но", sfxA "ет",
   sfxA "ют", sfxA "ны", sfxA "ть", sfx "ей", sfx "уй", sfx "ил", sfx "ыл",
   sfx "им", sfx "ым", sfx "ен", sfx "ят", sfx "ит", sfx "ыт", sfx "ую",
   sfxA "й", sfxA "л", sfxA "н", sfx "ю"]

def NOUN_SUFFIXES : List StemSuf :=
  [sfx "иями",
   sfx "ями", sfx "ами", sfx "ией", sfx "иям", sfx "ием", sfx "иях",
   sfx "ев", sfx "ов", sfx "ие", sfx "ье", sfx "еи", sfx "ии", sfx "ей", sfx "ой",
   sfx "ий", sfx "ям", sfx "ем", sfx "ам", sfx "ом", sfx "ах", sfx "ях", sfx "ию",
   sfx "ью", sfx "ия", sfx "ья",
   sfx "а", sfx "е", sfx "и", sfx "й", sfx "о", sfx "у", sfx "ы", sfx "ь",
   sfx "ю", sfx "я"]

def DERIVATIONAL_SUFFIXES : List StemSuf := [sfx "ость", sfx "ост"]

def SUPERLATIVE_SUFFIXES : List StemSuf := [sfx "ейше", sfx "ейш"]

/-- One word through the Snowball Russian stemmer (as wrapped by
`nltk.stem.snowball.SnowballStemmer('russian')`): ё is read as е; step 1 strips a
perfective gerund, or else a reflexive ending and then an adjectival, verb or
noun ending; step 2 strips a trailing и; step 3 strips a derivational ending in
R2; step 4 undoubles нн, strips a superlative, or strips a soft sign.  Every
ending must lie inside the RV region. -/
def stemWord (w0 : Str) : Str :=
  let w := w0.map (fun c => if c == rc 'ё' then rc 'е' else c)
  let rvp := rvPosOf w
  let r2p := r2PosOf w
  let w1 :=
    match tryStrip w rvp PERFECTIVE_GERUND_SUFFIXES with
    | some w' => w'
    | none =>
      let wa :=
        match tryStrip w rvp REFLEXIVE_SUFFIXES with
        | some w' => w'
        | none => w
      match tryStrip wa rvp ADJECTIVE_SUFFIXES with
      | some wb =>
        match tryStrip wb rvp PARTICIPLE_SUFFIXES with
        | some wc => wc
        | none => wb
      | none =>
        match tryStrip wa rvp VERB_SUFFIXES with
        | some wb => wb
        | none =>
          match tryStrip wa rvp NOUN_SUFFIXES with
          | some wb => wb
          | none => wa
  let w2 := if endsWithIn w1 rvp [rc 'и'] then w1.take (w1.length - 1) else w1
  let w3 :=
    match tryStrip w2 r2p DERIVATIONAL_SUFFIXES with
    | some w' => w'
    | none => w2
  if endsWithIn w3 rvp [rc 'н', rc 'н'] then w3.take (w3.length - 1)
  else
    match tryStrip w3 rvp SUPERLATIVE_SUFFIXES with
    | some w' => if endsWithIn w' rvp [rc 'н', rc 'н'] then w'.take (w'.length - 1) else w'
    | none => if endsWithIn w3 rvp [rc 'ь'] then w3.take (w3.length - 1) else w3

/-- Scanner for `str.split()`: `acc` holds the characters of the token being
read, in reverse order. -/
def splitWsAux : Str → Str → List Str
  | [], acc => if acc.isEmpty then [] else [acc.reverse]
  | c :: cs, acc =>
    if isWsChar c then
      if acc.isEmpty then splitWsAux cs [] else acc.reverse :: splitWsAux cs []
    else splitWsAux cs (c :: acc)

/-- Python's `str.split()` with no argument: split on whitespace runs, no empty
tokens. -/
def splitWs (s : Str) : List Str := splitWsAux s []

/-- `' '.join(tokens)`. -/
def joinSp : List Str → Str
  | [] => []
  | t :: ts =>
    match ts with
    | [] => t
    | _ :: _ => t ++ 32 :: joinSp ts

/-- `RegionMatcher.stem_region_name`: empty in, empty out; otherwise each
whitespace-delimited token is stemmed and the results rejoined with single
spaces. -/
def stem_region_name (s : Str) : Str :=
  if s.isEmpty then [] else joinSp ((splitWs s).map stemWord)

example : stemWord (strToCodes "московская") = strToCodes "московск" := by decide

example : stem_region_name (strToCodes "московская область") = strToCodes "московск област" := by
  decide

example : stemWord (strToCodes "дон") = strToCodes "дон" := by decide

example : stemWord (strToCodes "ввв") = strToCodes "ввв" := by decide

/-- Fuel-indexed longest-common-subsequence length; with fuel
`|s1| + |s2|` it computes the LCS length (structural recursion so that concrete
values reduce in the kernel). -/
def llcsFuel : Nat → Str → Str → Nat
  | 0, _, _ => 0
  | _ + 1, [], _ => 0
  | _ + 1, _ :: _, [] => 0
  | f + 1, x :: xs, y :: ys =>
    if x = y then llcsFuel f xs ys + 1
    else max (llcsFuel f (x :: xs) ys) (llcsFuel f xs (y :: ys))

/-- Length of the longest common subsequence of two strings.  The
python-Levenshtein `ratio` is `(lensum - dist)/lensum` with substitution cost 2,
which equals `2*llcs/(len1+len2)`. -/
def llcs (s1 s2 : Str) : Nat := llcsFuel (s1.length + s2.length) s1 s2

/-- Python's `int(round(a/b))` for nonnegative `a/b` (`b > 0`): rounding half to
even, as `utils.intr` does in fuzzywuzzy. -/
def roundRatNat (a b : Nat) : Nat :=
  if 2 * (a % b) < b then a / b
  else if b < 2 * (a % b) then a / b + 1
  else if (a / b) % 2 = 0 then a / b else a / b + 1

/-- `fuzz.ratio`: the `check_for_equivalence` decorator returns 100 on equal
arguments, `check_empty_string` returns 0 when either is empty, otherwise the
similarity `2*llcs/(len1+len2)` scaled to 0..100 and rounded half to even. -/
def fuzzRatio (s1 s2 : Str) : Nat :=
  if s1 = s2 then 100
  else if s1.isEmpty || s2.isEmpty then 0
  else roundRatNat (200 * llcs s1 s2) (s1.length + s2.length)

/-- fuzzywuzzy's `utils.asciidammit` on a `str`: characters 128..255 deleted
(applied because `token_set_ratio` defaults to `force_ascii=True`). -/
def asciiDammit (s : Str) : Str := s.filter (fun c => !(decide (128 ≤ c) && decide (c ≤ 255)))

/-- Python's `\w` for the character ranges this program works with: ASCII
letters, digits, underscore, and the Cyrillic block. -/
def isWordNat (c : Nat) : Bool :=
  decide ((48 ≤ c ∧ c ≤ 57) ∨ (65 ≤ c ∧ c ≤ 90) ∨ (97 ≤ c ∧ c ≤ 122) ∨ c = 95 ∨
    (1024 ≤ c ∧ c ≤ 1279))

/-- fuzzywuzzy's `utils.full_process` with `force_ascii=True`: strip
non-ASCII-range 128..255, replace every non-word character by a space,
lowercase, strip. -/
def full_process (s : Str) : Str :=
  stripStr (lowerStr ((asciiDammit s).map (fun c => if isWordNat c then c else 32)))

/-- Lexicographic (code point) order on strings, as Python's `sorted` uses. -/
def lexLtStr : Str → Str → Bool
  | [], [] => false
  | [], _ :: _ => true
  | _ :: _, [] => false
  | a :: as, b :: bs => decide (a < b) || (a == b && lexLtStr as bs)

def insertSorted (x : Str) : List Str → List Str
  | [] => [x]
  | y :: ys => if lexLtStr x y then x :: y :: ys else y :: insertSorted x ys

/-- Python's `sorted` on a collection of distinct strings. -/
def sortStrs (l : List Str) : List Str := l.foldr insertSorted []

/-- Python's `set()` on a token list: duplicates removed (first occurrence kept;
the order is irrelevant because every use is sorted afterwards). -/
def dedupKeepFirst : List Str → List Str
  | [] => []
  | x :: xs => x :: (dedupKeepFirst xs).filter (fun y => !(y == x))

def tokensOf (s : Str) : List Str := dedupKeepFirst (splitWs s)

/-- `fuzz.token_set_ratio` (with its defaults `force_ascii=True`,
`full_process=True`): both sides full-processed, 0 when either becomes empty;
otherwise the maximum plain ratio among the sorted token intersection and the
two sorted combined strings. -/
def fuzzTokenSetRatio (s1 s2 : Str) : Nat :=
  let p1 := full_process s1
  let p2 := full_process s2
  if p1.isEmpty then 0
  else if p2.isEmpty then 0
  else
    let t1 := tokensOf p1
    let t2 := tokensOf p2
    let sect := t1.filter (fun x => t2.contains x)
    let d12 := t1.filter (fun x => !(t2.contains x))
    let d21 := t2.filter (fun x => !(t1.contains x))
    let sortedSect := joinSp (sortStrs sect)
    let c12 := stripStr (sortedSect ++ 32 :: joinSp (sortStrs d12))
    let c21 := stripStr (sortedSect ++ 32 :: joinSp (sortStrs d21))
    let s0 := stripStr sortedSect
    max (fuzzRatio s0 c12) (max (fuzzRatio s0 c21) (fuzzRatio c12 c21))

example : fuzzRatio (strToCodes "ввв ждд") (strToCodes "ввв ггг") = 57 := by decide

example : fuzzTokenSetRatio (strToCodes "ввв ждд") (strToCodes "ввв ггг") = 60 := by decide

example : fuzzRatio (strToCodes "ввв") (strToCodes "ввв ждд") = 60 := by decide

example : fuzzTokenSetRatio [] (strToCodes "ввв") = 0 := by decide

example : fuzzRatio [] [] = 100 := by decide

/-- The module constant `DEFAULT_ABBREVIATIONS` of `regions_validator.py`, as an
association list in source order (Python dicts preserve insertion order and
have unique keys). -/
def DEFAULT_ABBREVIATIONS : List (Str × Str) :=
  [(strToCodes "хмао", strToCodes "Ханты-Мансийский автономный округ"),
   (strToCodes "хм а о", strToCodes "Ханты-Мансийский автономный округ — Югра"),
   (strToCodes "янао", strToCodes "Ямало-Ненецкий автономный округ"),
   (strToCodes "я н ао", strToCodes "Ямало-Ненецкий автономный округ"),
   (strToCodes "нао", strToCodes "Ненецкий автономный округ"),
   (strToCodes "н а о", strToCodes "Ненецкий автономный округ"),
   (strToCodes "чао", strToCodes "Чукотский автономный округ"),
   (strToCodes "мо", strToCodes "Московская область"),
   (strToCodes "спб", strToCodes "Санкт-Петербург"),
   (strToCodes "свердл", strToCodes "Свердловская область"),
   (strToCodes "рт", strToCodes "Республика Татарстан"),
   (strToCodes "рб", strToCodes "Республика Башкортостан"),
   (strToCodes " фо", strToCodes "федеральный округ"),
   (strToCodes "кбр", strToCodes "Кабардино-Балкарская Республика"),
   (strToCodes "кчр", strToCodes "Карачаево-Черкесская Республика"),
   (strToCodes "еао", strToCodes "Еврейская автономная область"),
   (strToCodes "рсо", strToCodes "Республика Северная Осетия"),
   (strToCodes "цао", strToCodes "Центральный федеральный округ"),
   (strToCodes "сзфо", strToCodes "Северо-Западный федеральный округ"),
   (strToCodes "юфо", strToCodes "Южный федеральный округ"),
   (strToCodes "скфо", strToCodes "Северо-Кавказский федеральный округ"),
   (strToCodes "пфо", strToCodes "Приволжский федеральный округ"),
   (strToCodes "уфо", strToCodes "Уральский федеральный округ"),
   (strToCodes "сфо", strToCodes "Сибирский федеральный округ"),
   (strToCodes "двфо", strToCodes "Дальневосточный федеральный округ"),
   (strToCodes "россии", strToCodes "Российская Федерация"),
   (strToCodes "город москва столица российской федерации город федерального значения",
    strToCodes "Москва"),
   (strToCodes "город санкт петербург город федерального значения",
    strToCodes "Санкт-Петербург"),
   (strToCodes "город федерального значения севастополь", strToCodes "Севастополь"),
   (strToCodes "иные территории, включая байконур",
    strToCodes "Иные территории, включая Байконур"),
   (strToCodes "тюменская область (кроме ханты мансийского автономного округа югры и ямало ненецкого автономного округа)",
    strToCodes "Тюменская область"),
   (strToCodes "ненецкий автономный округ (архангельская область)",
    strToCodes "Ненецкий автономный округ"),
   (strToCodes "архангельская область (кроме ненецкого автономного округа)",
    strToCodes "Архангельская область"),
   (strToCodes "ямало ненецкий автономный округ (тюменская область)",
    strToCodes "Ямало-Ненецкий автономный округ"),
   (strToCodes "республика татарстан (татарстан)", strToCodes "Республика Татарстан"),
   (strToCodes "тюменская область (без ао)", strToCodes "Тюменская область"),
   (strToCodes "республика адыгея (адыгея)", strToCodes "Республика Адыгея"),
   (strToCodes "ханты мансийский автономный округ югра (тюменская область)",
    strToCodes "Ханты-Мансийский автономный округ")]

/-- The `weights` dictionary of `find_best_match` (its two consulted keys). -/
structure Weights where
  levenshtein : ℚ
  token_set : ℚ
deriving DecidableEq

/-- The `approach_weights` dictionary of `find_best_match`. -/
structure ApproachWeights where
  original : ℚ
  stemmed : ℚ
deriving DecidableEq

/-- The state of a `RegionMatcher` instance after `__init__`. -/
structure RegionMatcher where
  etalon : List Str
  abbreviations : List (Str × Str)
  preprocessed_etalon : List (Str × Str × Str)
deriving DecidableEq

/-- Python's `x or dflt` for an optional list/dict argument: `None` and the
empty collection are falsy and fall back to the default. -/
def pyOrList {α : Type} (arg : Option (List α)) (dflt : List α) : List α :=
  match arg with
  | none => dflt
  | some l => if l.isEmpty then dflt else l

/-- The precomputation in `__init__`: for each etalon entry the triple
(original, preprocessed, stemmed-preprocessed). -/
def precomputeEtalon (et : List Str) : List (Str × Str × Str) :=
  et.map (fun r => (r, preprocessStr r, stem_region_name (preprocessStr r)))

/-- `RegionMatcher.__init__(etalon_regions, abbreviations)`.  `moduleEtalon`
stands for the module constant `ETALON_REGIONS`, which is loaded at import time
from a YAML data file that is external to the code under verification. -/
def mkRegionMatcher (moduleEtalon : List Str) (etalon_regions : Option (List Str))
    (abbreviations : Option (List (Str × Str))) : RegionMatcher :=
  let et := pyOrList etalon_regions moduleEtalon
  { etalon := et
    abbreviations := pyOrList abbreviations DEFAULT_ABBREVIATIONS
    preprocessed_etalon := precomputeEtalon et }

/-- The `processed` local of `RegionMatcher._process_input`: the preprocessed
input, replaced by the re-preprocessed full name when it is an abbreviation
key. -/
def processedInput (m : RegionMatcher) (v : PyVal) : Str :=
  match m.abbreviations.lookup (preprocess_name v) with
  | some full => preprocessStr full
  | none => preprocess_name v

/-- `RegionMatcher._process_input`: preprocess, expand an exact abbreviation
match (re-preprocessing the expansion), and stem. -/
def _process_input (m : RegionMatcher) (v : PyVal) : Str × Str :=
  (processedInput m v, stem_region_name (processedInput m v))

/-- The per-entry score of the `find_best_match` loop body: Levenshtein and
token-set ratios over the preprocessed and the stemmed representations,
blended by the two weight dictionaries. -/
def entryScore (w : Weights) (aw : ApproachWeights) (pIn sIn : Str)
    (e : Str × Str × Str) : ℚ :=
  let originalScore := w.levenshtein * (fuzzRatio pIn e.2.1 : ℚ) +
    w.token_set * (fuzzTokenSetRatio pIn e.2.1 : ℚ)
  let stemmedScore := w.levenshtein * (fuzzRatio sIn e.2.2 : ℚ) +
    w.token_set * (fuzzTokenSetRatio sIn e.2.2 : ℚ)
  aw.original * originalScore + aw.stemmed * stemmedScore

/-- The `for etalon_name, ... in self.preprocessed_etalon` loop: starting from
`(None, 0)`, an entry strictly above the running best replaces it. -/
def scanBest (w : Weights) (aw : ApproachWeights) (pIn sIn : Str)
    (entries : List (Str × Str × Str)) : Option Str × ℚ :=
  entries.foldl (fun acc e =>
    if acc.2 < entryScore w aw pIn sIn e then (some e.1, entryScore w aw pIn sIn e) else acc)
    (none, 0)

/-- The observable content of the below-threshold `print` warning: the score it
reports and the etalon name it mentions (the loop variable's final value). -/
structure Diag where
  score : ℚ
  lastEtalon : Str
deriving DecidableEq

/-- Exceptions this embedding distinguishes: the `NameError` from reading the
loop variable `etalon_name` when the loop never ran, and a pandas/dict
`KeyError` for a missing column. -/
inductive PyError where
  | nameError
  | keyError
deriving DecidableEq

/-- `RegionMatcher.find_best_match`.  Returns the result pair together with the
list of emitted diagnostics, or the exception the call raises.  The warning
`print` mentions the loop variable `etalon_name`, which is unbound when
`preprocessed_etalon` is empty: that path raises `NameError`. -/
def find_best_match (m : RegionMatcher) (weights : Option Weights)
    (approach_weights : Option ApproachWeights) (threshold : ℚ) (input_name : PyVal) :
    Except PyError ((Option Str × Option ℚ) × List Diag) :=
  if (scanBest (weights.getD ⟨1/2, 1/2⟩) (approach_weights.getD ⟨1/2, 1/2⟩)
      (_process_input m input_name).1 (_process_input m input_name).2
      m.preprocessed_etalon).2 < threshold then
    match m.preprocessed_etalon.getLast? with
    | none => .error .nameError
    | some e =>
      .ok (((scanBest (weights.getD ⟨1/2, 1/2⟩) (approach_weights.getD ⟨1/2, 1/2⟩)
        (_process_input m input_name).1 (_process_input m input_name).2
        m.preprocessed_etalon).1, none),
        [⟨(scanBest (weights.getD ⟨1/2, 1/2⟩) (approach_weights.getD ⟨1/2, 1/2⟩)
        (_process_input m input_name).1 (_process_input m input_name).2
        m.preprocessed_etalon).2, e.1⟩])
  else
    .ok (((scanBest (weights.getD ⟨1/2, 1/2⟩) (approach_weights.getD ⟨1/2, 1/2⟩)
      (_process_input m input_name).1 (_process_input m input_name).2
      m.preprocessed_etalon).1,
      some (scanBest (weights.getD ⟨1/2, 1/2⟩) (approach_weights.getD ⟨1/2, 1/2⟩)
      (_process_input m input_name).1 (_process_input m input_name).2
      m.preprocessed_etalon).2), [])

/-- A pandas DataFrame as this program uses one: named columns of Python
values, in column order. -/
abbrev DataFrame := List (String × List PyVal)

def getCol (df : DataFrame) (name : String) : Option (List PyVal) := df.lookup name

/-- `df[name] = vals`: replace the existing column in place, or append a new
one at the end. -/
def setCol : DataFrame → String → List PyVal → DataFrame
  | [], name, vals => [(name, vals)]
  | (n, v) :: rest, name, vals =>
    if n = name then (name, vals) :: rest else (n, v) :: setCol rest name vals

/-- `pandas.Series.unique`: distinct values in order of first appearance. -/
def uniqueFirst (l : List PyVal) : List PyVal :=
  l.foldl (fun acc x => if x ∈ acc then acc else acc ++ [x]) []

/-- The mapping-building loop of `match_dataframe`: one `find_best_match` call
per distinct value, recording `(match, score-or-0)`. -/
def buildMapping (m : RegionMatcher) (w : Option Weights) (aw : Option ApproachWeights)
    (th : ℚ) (vals : List PyVal) : Except PyError (List (PyVal × (Option Str × ℚ))) :=
  vals.mapM (fun v => (find_best_match m w aw th v).map (fun r =>
    (v, (r.1.1, match r.1.2 with | some q => q | none => 0))))

def lookupVal (mp : List (PyVal × (Option Str × ℚ))) (v : PyVal) : Option Str × ℚ :=
  (mp.lookup v).getD (none, 0)

/-- How a matched name is stored in a DataFrame cell: `None` for no match. -/
def nameCell : Option Str → PyVal
  | some s => .pyStr s
  | none => .pyNone

/-- `RegionMatcher.match_dataframe`: match the distinct values of the column,
then broadcast, adding the columns `ter` and `levenshtein_score`. -/
def match_dataframe (m : RegionMatcher) (df : DataFrame) (column_name : String)
    (weights : Option Weights) (approach_weights : Option ApproachWeights) (threshold : ℚ) :
    Except PyError DataFrame :=
  match getCol df column_name with
  | none => .error .keyError
  | some col =>
    (buildMapping m weights approach_weights threshold (uniqueFirst col)).map (fun mp =>
      setCol (setCol df "ter" (col.map (fun v => nameCell (lookupVal mp v).1)))
        "levenshtein_score" (col.map (fun v => PyVal.pyRat (lookupVal mp v).2)))

/-- A record of the module-level `etalon_data['dict']`: a canonical Russian
name and its auxiliary attribute fields.  The file it is loaded from is
external to the code under verification, so theorems quantify over it. -/
structure EtalonRecord where
  name_rus : Str
  attrs : List (String × PyVal)
deriving DecidableEq

/-- `record.get(field)`: `None` when the field is missing. -/
def recordGet (r : EtalonRecord) (field : String) : PyVal :=
  (r.attrs.lookup field).getD .pyNone

/-- The `for record in etalon_data['dict'].values(): if record['name_rus'] == best_match`
search (a `None` best match equals no record's name). -/
def findRecord (data : List EtalonRecord) (bm : Option Str) : Option EtalonRecord :=
  data.find? (fun r => decide (bm = some r.name_rus))

/-- The value `attach_field` stores for one distinct input: `None` when the
score is absent, otherwise the looked-up field of the first matching record
(`None` when no record matches, by the `for`-`else`). -/
def attachValue (data : List EtalonRecord) (field : String)
    (r : Option Str × Option ℚ) : PyVal :=
  match r.2 with
  | none => .pyNone
  | some _ =>
    match findRecord data r.1 with
    | some r0 => recordGet r0 field
    | none => .pyNone

def buildFieldMapping (data : List EtalonRecord) (m : RegionMatcher) (w : Option Weights)
    (aw : Option ApproachWeights) (th : ℚ) (field : String) (vals : List PyVal) :
    Except PyError (List (PyVal × PyVal)) :=
  vals.mapM (fun v => (find_best_match m w aw th v).map (fun r => (v, attachValue data field r.1)))

/-- `RegionMatcher.attach_field`: resolves attribute values against the
module-level `etalon_data` (here the explicit `data` parameter), not against
the matcher's own reference set. -/
def attach_field (data : List EtalonRecord) (m : RegionMatcher) (df : DataFrame)
    (column_name : String) (etalon_field : String) (w : Option Weights)
    (aw : Option ApproachWeights) (th : ℚ) : Except PyError DataFrame :=
  match getCol df column_name with
  | none => .error .keyError
  | some col =>
    (buildFieldMapping data m w aw th etalon_field (uniqueFirst col)).map (fun mp =>
      setCol df etalon_field (col.map (fun v => (mp.lookup v).getD .pyNone)))

/-- The per-value row of `attach_fields`: the attachment of every requested
field from the single `find_best_match` result. -/
def attachValues (data : List EtalonRecord) (fields : List String)
    (r : Option Str × Option ℚ) : List PyVal :=
  match r.2 with
  | none => fields.map (fun _ => PyVal.pyNone)
  | some _ =>
    match findRecord data r.1 with
    | some r0 => fields.map (fun f => recordGet r0 f)
    | none => fields.map (fun _ => PyVal.pyNone)

def buildFieldsMapping (data : List EtalonRecord) (m : RegionMatcher) (w : Option Weights)
    (aw : Option ApproachWeights) (th : ℚ) (fields : List String) (vals : List PyVal) :
    Except PyError (List (PyVal × List PyVal)) :=
  vals.mapM (fun v => (find_best_match m w aw th v).map (fun r => (v, attachValues data fields r.1)))

/-- The final loop of `attach_fields`: one new column per requested field, in
list order; the cell of a row is the `i`-th attachment of its value. -/
def setFieldCols (col : List PyVal) (mp : List (PyVal × List PyVal)) :
    List String → Nat → DataFrame → DataFrame
  | [], _, df => df
  | f :: fs, i, df =>
    setFieldCols col mp fs (i + 1)
      (setCol df f (col.map (fun v => List.getD ((mp.lookup v).getD []) i PyVal.pyNone)))

/-- `RegionMatcher.attach_fields`: one `find_best_match` per distinct value,
then one new column per requested field. -/
def attach_fields (data : List EtalonRecord) (m : RegionMatcher) (df : DataFrame)
    (column_name : String) (etalon_fields : List String) (w : Option Weights)
    (aw : Option ApproachWeights) (th : ℚ) : Except PyError DataFrame :=
  match getCol df column_name with
  | none => .error .keyError
  | some col =>
    (buildFieldsMapping data m w aw th etalon_fields (uniqueFirst col)).map (fun mp =>
      setFieldCols col mp etalon_fields 0 df)

/-- The metadata-stripping loop as claim C4 describes it (modelled from the
spec's words, for comparison with the source's `stripExtra`): the phrases are
tested in list order and only the first phrase found triggers a truncation,
after which the pass stops. -/
def stripExtraFirstOnly : List Str → Str → Str
  | [], s => s
  | w :: ws, s => if occursIn w s then stripStr (prefixBefore w s) else stripExtraFirstOnly ws s

/-- `preprocess_name` as claim C4 describes it: identical to `preprocessStr`
except that at most one qualifier phrase triggers truncation. -/
def preprocessStrFirstOnly (s : Str) : Str :=
  stripExtraFirstOnly EXTRA_DATA
    (lowerStr (stripStr (collapseRun isWsChar (collapseRun isDashChar
      (applyLatinTable LATIN_TO_CYRILLIC s)))))

theorem llcsFuel_le_min : ∀ (f : Nat) (xs ys : Str), llcsFuel f xs ys ≤ min xs.length ys.length := by
  intro f
  induction f with
  | zero => intro xs ys; simp [llcsFuel]
  | succ f ih =>
    intro xs ys
    match xs, ys with
    | [], _ => simp [llcsFuel]
    | _ :: _, [] => simp [llcsFuel]
    | x :: xs, y :: ys =>
      simp only [llcsFuel, List.length_cons]
      split_ifs with h
      · have := ih xs ys; omega
      · have h1 := ih (x :: xs) ys
        have h2 := ih xs (y :: ys)
        simp only [List.length_cons] at h1 h2
        omega

theorem roundRatNat_le (a b n : Nat) (hb : 0 < b) (h : a ≤ n * b) : roundRatNat a b ≤ n := by
  have hdm : b * (a / b) + a % b = a := Nat.div_add_mod a b
  have hmod : a % b < b := Nat.mod_lt a hb
  have hq : a / b ≤ n := by
    have h1 := Nat.div_le_div_right (c := b) h
    rwa [Nat.mul_div_cancel _ hb] at h1
  have hstrict : a / b = n → a % b = 0 := by
    intro he
    rw [he, Nat.mul_comm] at hdm
    have h2 : a % b ≤ 0 := by linarith
    omega
  unfold roundRatNat
  split_ifs with h1 h2 h3
  · exact hq
  · rcases Nat.lt_or_ge (a / b) n with hlt | hge
    · omega
    · have := hstrict (le_antisymm hq hge); omega
  · exact hq
  · rcases Nat.lt_or_ge (a / b) n with hlt | hge
    · omega
    · have := hstrict (le_antisymm hq hge); omega

theorem fuzzRatio_le_100 (s1 s2 : Str) : fuzzRatio s1 s2 ≤ 100 := by
  unfold fuzzRatio
  split_ifs with h1 h2
  · exact le_refl 100
  · omega
  · have hne : s1 ≠ [] ∧ s2 ≠ [] := by
      constructor <;> intro hx <;> simp [hx] at h2
    have hlen1 : 0 < s1.length := List.length_pos.mpr hne.1
    have hlen2 : 0 < s2.length := List.length_pos.mpr hne.2
    apply roundRatNat_le _ _ _ (by omega)
    have := llcsFuel_le_min (s1.length + s2.length) s1 s2
    simp only [llcs]
    omega

theorem fuzzRatio_self (s : Str) : fuzzRatio s s = 100 := by simp [fuzzRatio]

theorem fuzzTokenSetRatio_le_100 (s1 s2 : Str) : fuzzTokenSetRatio s1 s2 ≤ 100 := by
  simp only [fuzzTokenSetRatio]
  split_ifs
  · exact Nat.zero_le 100
  · exact Nat.zero_le 100
  · exact Nat.max_le.mpr ⟨fuzzRatio_le_100 _ _,
      Nat.max_le.mpr ⟨fuzzRatio_le_100 _ _, fuzzRatio_le_100 _ _⟩⟩

theorem fuzzTokenSetRatio_left_nil (s : Str) : fuzzTokenSetRatio [] s = 0 := by
  simp [fuzzTokenSetRatio, full_process, asciiDammit, lowerStr, stripStr, dropLeadWs]

theorem entryScore_default_le_100 (pIn sIn : Str) (e : Str × Str × Str) :
    entryScore ⟨1/2, 1/2⟩ ⟨1/2, 1/2⟩ pIn sIn e ≤ 100 := by
  unfold entryScore
  have b1 : (fuzzRatio pIn e.2.1 : ℚ) ≤ 100 := by exact_mod_cast fuzzRatio_le_100 pIn e.2.1
  have b2 : (fuzzTokenSetRatio pIn e.2.1 : ℚ) ≤ 100 := by
    exact_mod_cast fuzzTokenSetRatio_le_100 pIn e.2.1
  have b3 : (fuzzRatio sIn e.2.2 : ℚ) ≤ 100 := by exact_mod_cast fuzzRatio_le_100 sIn e.2.2
  have b4 : (fuzzTokenSetRatio sIn e.2.2 : ℚ) ≤ 100 := by
    exact_mod_cast fuzzTokenSetRatio_le_100 sIn e.2.2
  linarith

theorem scanBest_stay (w : Weights) (aw : ApproachWeights) (pIn sIn : Str)
    (l : List (Str × Str × Str)) (nm : Option Str) (q : ℚ)
    (h : ∀ e ∈ l, entryScore w aw pIn sIn e ≤ q) :
    l.foldl (fun acc e =>
      if acc.2 < entryScore w aw pIn sIn e then (some e.1, entryScore w aw pIn sIn e) else acc)
      (nm, q) = (nm, q) := by
  induction l with
  | nil => rfl
  | cons a as ih =>
    have ha := h a (List.mem_cons_self a as)
    simp only [List.foldl_cons, if_neg (not_lt.mpr ha)]
    exact ih (fun e he => h e (List.mem_cons_of_mem a he))

theorem scanBest_snd_mono (w : Weights) (aw : ApproachWeights) (pIn sIn : Str)
    (l : List (Str × Str × Str)) (acc : Option Str × ℚ) :
    acc.2 ≤ (l.foldl (fun acc e =>
      if acc.2 < entryScore w aw pIn sIn e then (some e.1, entryScore w aw pIn sIn e) else acc)
      acc).2 := by
  induction l generalizing acc with
  | nil => exact le_refl _
  | cons a as ih =>
    simp only [List.foldl_cons]
    rcases lt_or_ge acc.2 (entryScore w aw pIn sIn a) with hlt | hge
    · calc acc.2 ≤ entryScore w aw pIn sIn a := le_of_lt hlt
        _ ≤ _ := by simpa [if_pos hlt] using ih (some a.1, entryScore w aw pIn sIn a)
    · simpa [if_neg (not_lt.mpr hge)] using ih acc

theorem scanBest_snd_le (w : Weights) (aw : ApproachWeights) (pIn sIn : Str)
    (l : List (Str × Str × Str)) (acc : Option Str × ℚ) (q : ℚ)
    (hacc : acc.2 ≤ q) (h : ∀ e ∈ l, entryScore w aw pIn sIn e ≤ q) :
    (l.foldl (fun acc e =>
      if acc.2 < entryScore w aw pIn sIn e then (some e.1, entryScore w aw pIn sIn e) else acc)
      acc).2 ≤ q := by
  induction l generalizing acc with
  | nil => exact hacc
  | cons a as ih =>
    simp only [List.foldl_cons]
    split_ifs with hlt
    · exact ih _ (h a (List.mem_cons_self a as)) (fun e he => h e (List.mem_cons_of_mem a he))
    · exact ih _ hacc (fun e he => h e (List.mem_cons_of_mem a he))

theorem dropWhile_head_not (p : Nat → Bool) (s : Str) :
    ∀ c, (s.dropWhile p).head? = some c → p c = false := by
  induction s with
  | nil => intro c h; simp [List.dropWhile] at h
  | cons a as ih =>
    intro c h
    rw [List.dropWhile_cons] at h
    by_cases hp : p a
    · exact ih c (by simpa [hp] using h)
    · rw [if_neg hp] at h
      simp only [List.head?_cons, Option.some.injEq] at h
      subst h
      simpa using hp

theorem getLast?_of_suffix {l m : Str} (h : l <:+ m) (hne : l ≠ []) :
    l.getLast? = m.getLast? := by
  obtain ⟨t, rfl⟩ := h
  exact (List.getLast?_append_of_ne_nil t hne).symm

theorem stripStr_head_not_ws (s : Str) :
    ∀ c, (stripStr s).head? = some c → isWsChar c = false := by
  intro c h
  unfold stripStr at h
  rw [List.head?_reverse] at h
  set X := (dropLeadWs s).reverse.dropWhile (fun c => isWsChar c) with hX
  have hXne : X ≠ [] := by
    intro hnil
    rw [hnil] at h
    simp at h
  have hsuf : X <:+ (dropLeadWs s).reverse := List.dropWhile_suffix _
  rw [getLast?_of_suffix hsuf hXne, List.getLast?_reverse] at h
  exact dropWhile_head_not _ s c h

theorem stripStr_getLast_not_ws (s : Str) :
    ∀ c, (stripStr s).getLast? = some c → isWsChar c = false := by
  intro c h
  unfold stripStr at h
  rw [List.getLast?_reverse] at h
  exact dropWhile_head_not _ _ c h

theorem stripStr_eq_self (s : Str)
    (hh : ∀ c, s.head? = some c → isWsChar c = false)
    (hl : ∀ c, s.getLast? = some c → isWsChar c = false) : stripStr s = s := by
  have h1 : dropLeadWs s = s := by
    unfold dropLeadWs
    cases s with
    | nil => rfl
    | cons a as =>
      rw [List.dropWhile_cons]
      simp [hh a rfl]
  unfold stripStr
  rw [h1]
  cases hrev : s.reverse with
  | nil => simp_all
  | cons b bs =>
    have hb : s.getLast? = some b := by rw [← List.head?_reverse, hrev]; rfl
    rw [List.dropWhile_cons]
    simp only [hl b hb, Bool.false_eq_true, if_false]
    rw [← hrev, List.reverse_reverse]

theorem stripStr_append_space (s : Str) (hne : s ≠ [])
    (hh : ∀ c, s.head? = some c → isWsChar c = false)
    (hl : ∀ c, s.getLast? = some c → isWsChar c = false) : stripStr (s ++ [32]) = s := by
  have h1 : dropLeadWs (s ++ [32]) = s ++ [32] := by
    unfold dropLeadWs
    cases s with
    | nil => simp at hne
    | cons a as =>
      rw [List.cons_append, List.dropWhile_cons]
      simp [hh a rfl]
  unfold stripStr
  rw [h1, List.reverse_append]
  simp only [List.reverse_cons, List.reverse_nil, List.nil_append, List.singleton_append]
  rw [List.dropWhile_cons]
  have h32 : isWsChar 32 = true := by decide
  simp only [h32, if_true]
  cases hrev : s.reverse with
  | nil => simp_all
  | cons b bs =>
    have hb : s.getLast? = some b := by rw [← List.head?_reverse, hrev]; rfl
    rw [List.dropWhile_cons]
    simp only [hl b hb, Bool.false_eq_true, if_false]
    rw [← hrev, List.reverse_reverse]

theorem splitWsAux_tokens (s : Str) :
    ∀ (acc : Str), (∀ c ∈ acc, isWsChar c = false) →
      ∀ t ∈ splitWsAux s acc, t ≠ [] ∧ ∀ c ∈ t, isWsChar c = false := by
  induction s with
  | nil =>
    intro acc hacc t ht
    unfold splitWsAux at ht
    by_cases he : acc.isEmpty
    · simp [he] at ht
    · simp [he] at ht
      subst ht
      constructor
      · simpa [List.isEmpty_iff] using he
      · intro c hc; exact hacc c (List.mem_reverse.mp hc)
  | cons a as ih =>
    intro acc hacc t ht
    unfold splitWsAux at ht
    by_cases hw : isWsChar a
    · simp only [hw, if_true] at ht
      by_cases he : acc.isEmpty
      · simp only [he, if_true] at ht
        exact ih [] (by simp) t ht
      · simp only [he, Bool.false_eq_true, if_false, List.mem_cons] at ht
        rcases ht with rfl | ht
        · constructor
          · simpa [List.isEmpty_iff] using he
          · intro c hc; exact hacc c (List.mem_reverse.mp hc)
        · exact ih [] (by simp) t ht
    · simp only [hw, Bool.false_eq_true, if_false] at ht
      refine ih (a :: acc) ?_ t ht
      intro c hc
      rcases List.mem_cons.mp hc with rfl | hc
      · simpa using hw
      · exact hacc c hc

theorem splitWs_tokens (s : Str) :
    ∀ t ∈ splitWs s, t ≠ [] ∧ ∀ c ∈ t, isWsChar c = false :=
  splitWsAux_tokens s [] (by simp)

theorem splitWsAux_ne_nil (s : Str) :
    ∀ (acc : Str), acc ≠ [] → splitWsAux s acc ≠ [] := by
  induction s with
  | nil =>
    intro acc hne
    unfold splitWsAux
    simp [List.isEmpty_iff, hne]
  | cons a as ih =>
    intro acc hne
    unfold splitWsAux
    by_cases hw : isWsChar a
    · simp only [hw, if_true, List.isEmpty_iff, hne, if_neg hne]
      simp
    · simp only [hw, Bool.false_eq_true, if_false]
      exact ih (a :: acc) (by simp)

theorem splitWs_ne_nil (s : Str) (hne : s ≠ [])
    (hh : ∀ c, s.head? = some c → isWsChar c = false) : splitWs s ≠ [] := by
  cases s with
  | nil => simp at hne
  | cons a as =>
    unfold splitWs splitWsAux
    simp only [hh a rfl, Bool.false_eq_true, if_false]
    exact splitWsAux_ne_nil as [a] (by simp)

theorem mem_dedupKeepFirst {x : Str} : ∀ {l : List Str}, x ∈ dedupKeepFirst l → x ∈ l := by
  intro l
  induction l with
  | nil => simp [dedupKeepFirst]
  | cons a as ih =>
    intro hx
    unfold dedupKeepFirst at hx
    rcases List.mem_cons.mp hx with rfl | hx
    · exact List.mem_cons_self _ _
    · exact List.mem_cons_of_mem a (ih (List.mem_of_mem_filter hx))

theorem dedupKeepFirst_ne_nil {l : List Str} (h : l ≠ []) : dedupKeepFirst l ≠ [] := by
  cases l with
  | nil => simp at h
  | cons a as => simp [dedupKeepFirst]

theorem mem_insertSorted {x y : Str} : ∀ {l : List Str}, x ∈ insertSorted y l → x = y ∨ x ∈ l := by
  intro l
  induction l with
  | nil => simp [insertSorted]
  | cons a as ih =>
    intro hx
    unfold insertSorted at hx
    split_ifs at hx
    · rcases List.mem_cons.mp hx with rfl | hx
      · exact Or.inl rfl
      · exact Or.inr hx
    · rcases List.mem_cons.mp hx with rfl | hx
      · exact Or.inr (List.mem_cons_self _ _)
      · rcases ih hx with h | h
        · exact Or.inl h
        · exact Or.inr (List.mem_cons_of_mem a h)

theorem mem_sortStrs {x : Str} : ∀ {l : List Str}, x ∈ sortStrs l → x ∈ l := by
  intro l
  induction l with
  | nil => simp [sortStrs]
  | cons a as ih =>
    intro hx
    have hx' : x ∈ insertSorted a (sortStrs as) := hx
    rcases mem_insertSorted hx' with rfl | hx''
    · exact List.mem_cons_self _ _
    · exact List.mem_cons_of_mem a (ih hx'')

theorem length_insertSorted (y : Str) : ∀ (l : List Str),
    (insertSorted y l).length = l.length + 1 := by
  intro l
  induction l with
  | nil => rfl
  | cons a as ih =>
    unfold insertSorted
    split_ifs <;> simp [ih]

theorem length_sortStrs : ∀ (l : List Str), (sortStrs l).length = l.length := by
  intro l
  induction l with
  | nil => rfl
  | cons a as ih =>
    have h1 : sortStrs (a :: as) = insertSorted a (sortStrs as) := rfl
    rw [h1, length_insertSorted, ih, List.length_cons]

theorem sortStrs_ne_nil {l : List Str} (h : l ≠ []) : sortStrs l ≠ [] := by
  intro hnil
  have := length_sortStrs l
  rw [hnil] at this
  exact h (List.length_eq_zero.mp this.symm)

theorem joinSp_ne_nil : ∀ (ts : List Str), ts ≠ [] → (∀ t ∈ ts, t ≠ []) → joinSp ts ≠ [] := by
  intro ts hne h
  cases ts with
  | nil => simp at hne
  | cons t rest =>
    cases rest with
    | nil => exact h t (List.mem_cons_self _ _)
    | cons t2 rest2 =>
      have ht : t ≠ [] := h t (List.mem_cons_self _ _)
      unfold joinSp
      simp [ht]

theorem joinSp_head_not_ws : ∀ (ts : List Str),
    (∀ t ∈ ts, t ≠ [] ∧ ∀ c ∈ t, isWsChar c = false) →
    ∀ c, (joinSp ts).head? = some c → isWsChar c = false := by
  intro ts h c hc
  cases ts with
  | nil => simp [joinSp] at hc
  | cons t rest =>
    have ht := h t (List.mem_cons_self _ _)
    cases rest with
    | nil => exact ht.2 c (List.mem_of_mem_head? hc)
    | cons t2 rest2 =>
      unfold joinSp at hc
      rw [List.head?_append_of_ne_nil _ ht.1] at hc
      exact ht.2 c (List.mem_of_mem_head? hc)

theorem joinSp_getLast_not_ws : ∀ (ts : List Str),
    (∀ t ∈ ts, t ≠ [] ∧ ∀ c ∈ t, isWsChar c = false) →
    ∀ c, (joinSp ts).getLast? = some c → isWsChar c = false := by
  intro ts
  induction ts with
  | nil => intro _ c hc; simp [joinSp] at hc
  | cons t rest ih =>
    intro h c hc
    have ht := h t (List.mem_cons_self _ _)
    cases rest with
    | nil =>
      exact ht.2 c (List.mem_of_mem_getLast? hc)
    | cons t2 rest2 =>
      unfold joinSp at hc
      have hne2 : joinSp (t2 :: rest2) ≠ [] :=
        joinSp_ne_nil _ (by simp) (fun u hu => (h u (List.mem_cons_of_mem t hu)).1)
      rw [List.getLast?_append_of_ne_nil _ (by simp)] at hc
      have : (32 :: joinSp (t2 :: rest2)).getLast? = (joinSp (t2 :: rest2)).getLast? := by
        cases hj : joinSp (t2 :: rest2) with
        | nil => exact absurd hj hne2
        | cons d ds => simp [List.getLast?_cons_cons]
      rw [this] at hc
      exact ih (fun u hu => h u (List.mem_cons_of_mem t hu)) c hc

theorem full_process_head_not_ws (s : Str) :
    ∀ c, (full_process s).head? = some c → isWsChar c = false := by
  intro c hc
  unfold full_process at hc
  exact stripStr_head_not_ws _ c hc

theorem tokensOf_tokens (p : Str) : ∀ t ∈ tokensOf p, t ≠ [] ∧ ∀ c ∈ t, isWsChar c = false :=
  fun t ht => splitWs_tokens p t (mem_dedupKeepFirst ht)

theorem tokensOf_ne_nil (p : Str) (hp : p ≠ [])
    (hh : ∀ c, p.head? = some c → isWsChar c = false) : tokensOf p ≠ [] :=
  dedupKeepFirst_ne_nil (splitWs_ne_nil p hp hh)

theorem fuzzTokenSetRatio_self (s : Str) (h : ¬ full_process s = []) :
    fuzzTokenSetRatio s s = 100 := by
  have hie : (full_process s).isEmpty = false := by simp [List.isEmpty_iff, h]
  have hT := tokensOf_tokens (full_process s)
  have hTne : tokensOf (full_process s) ≠ [] :=
    tokensOf_ne_nil _ h (full_process_head_not_ws s)
  have hsect : (tokensOf (full_process s)).filter
      (fun x => (tokensOf (full_process s)).contains x) = tokensOf (full_process s) := by
    apply List.filter_eq_self.mpr
    intro x hx
    exact List.elem_eq_true_of_mem hx
  have hdiff : (tokensOf (full_process s)).filter
      (fun x => !((tokensOf (full_process s)).contains x)) = [] := by
    apply List.filter_eq_nil_iff.mpr
    intro x hx
    simpa using hx
  have hsorted : ∀ t ∈ sortStrs (tokensOf (full_process s)),
      t ≠ [] ∧ ∀ c ∈ t, isWsChar c = false := fun t ht => hT t (mem_sortStrs ht)
  have hssne : joinSp (sortStrs (tokensOf (full_process s))) ≠ [] :=
    joinSp_ne_nil _ (sortStrs_ne_nil hTne) (fun t ht => (hsorted t ht).1)
  have hsshead := joinSp_head_not_ws (sortStrs (tokensOf (full_process s))) hsorted
  have hsslast := joinSp_getLast_not_ws (sortStrs (tokensOf (full_process s))) hsorted
  have hs0 : stripStr (joinSp (sortStrs (tokensOf (full_process s)))) =
      joinSp (sortStrs (tokensOf (full_process s))) :=
    stripStr_eq_self _ hsshead hsslast
  have hc12 : stripStr (joinSp (sortStrs (tokensOf (full_process s))) ++ 32 :: joinSp (sortStrs [])) =
      joinSp (sortStrs (tokensOf (full_process s))) := by
    have : (sortStrs ([] : List Str)) = [] := rfl
    rw [this]
    show stripStr (joinSp (sortStrs (tokensOf (full_process s))) ++ [32]) = _
    exact stripStr_append_space _ hssne hsshead hsslast
  simp only [fuzzTokenSetRatio, hie, Bool.false_eq_true, if_false, hsect, hdiff, hc12, hs0,
    fuzzRatio_self]
  rfl

theorem scanBest_snd_ge (w : Weights) (aw : ApproachWeights) (pIn sIn : Str)
    (l : List (Str × Str × Str)) (acc : Option Str × ℚ) (e : Str × Str × Str) (he : e ∈ l) :
    entryScore w aw pIn sIn e ≤ (l.foldl (fun acc e =>
      if acc.2 < entryScore w aw pIn sIn e then (some e.1, entryScore w aw pIn sIn e) else acc)
      acc).2 := by
  induction l generalizing acc with
  | nil => cases he
  | cons a as ih =>
    simp only [List.foldl_cons]
    rcases List.mem_cons.mp he with rfl | h
    · by_cases hlt : acc.2 < entryScore w aw pIn sIn e
      · rw [if_pos hlt]
        exact scanBest_snd_mono w aw pIn sIn as (some e.1, entryScore w aw pIn sIn e)
      · rw [if_neg hlt]
        exact le_trans (not_lt.mp hlt) (scanBest_snd_mono w aw pIn sIn as acc)
    · by_cases hlt : acc.2 < entryScore w aw pIn sIn a
      · rw [if_pos hlt]
        exact ih (some a.1, entryScore w aw pIn sIn a) h
      · rw [if_neg hlt]
        exact ih acc h

theorem scanBest_acc_lt (w : Weights) (aw : ApproachWeights) (pIn sIn : Str)
    (l : List (Str × Str × Str)) (M : ℚ) :
    ∀ acc : Option Str × ℚ, acc.2 < M → (∀ e ∈ l, entryScore w aw pIn sIn e < M) →
      (l.foldl (fun acc e =>
        if acc.2 < entryScore w aw pIn sIn e then (some e.1, entryScore w aw pIn sIn e) else acc)
        acc).2 < M := by
  induction l with
  | nil => intro acc h _; exact h
  | cons a l ih =>
    intro acc h hl
    rw [List.foldl_cons]
    by_cases hc : acc.2 < entryScore w aw pIn sIn a
    · rw [if_pos hc]
      exact ih _ (hl a (List.mem_cons_self a l)) (fun e he => hl e (List.mem_cons_of_mem a he))
    · rw [if_neg hc]
      exact ih acc h (fun e he => hl e (List.mem_cons_of_mem a he))

/-- The scan returns the first entry attaining the maximum, when that maximum
is positive: entries before it score strictly less, entries after it do not
exceed it. -/
theorem scanBest_first_max (w : Weights) (aw : ApproachWeights) (pIn sIn : Str)
    (l1 l2 : List (Str × Str × Str)) (e : Str × Str × Str)
    (h0 : 0 < entryScore w aw pIn sIn e)
    (h1 : ∀ e' ∈ l1, entryScore w aw pIn sIn e' < entryScore w aw pIn sIn e)
    (h2 : ∀ e' ∈ l2, entryScore w aw pIn sIn e' ≤ entryScore w aw pIn sIn e) :
    scanBest w aw pIn sIn (l1 ++ e :: l2) = (some e.1, entryScore w aw pIn sIn e) := by
  unfold scanBest
  rw [List.foldl_append, List.foldl_cons]
  have hacc : (l1.foldl (fun acc e =>
      if acc.2 < entryScore w aw pIn sIn e then (some e.1, entryScore w aw pIn sIn e) else acc)
      ((none : Option Str), (0 : ℚ))).2 < entryScore w aw pIn sIn e :=
    scanBest_acc_lt w aw pIn sIn l1 _ _ h0 h1
  rw [if_pos hacc]
  exact scanBest_stay w aw pIn sIn l2 _ _ h2

theorem entryScore_default_self (c₀ pq sq : Str)
    (h3 : ¬ full_process pq = []) (h4 : ¬ full_process sq = []) :
    entryScore ⟨1/2, 1/2⟩ ⟨1/2, 1/2⟩ pq sq (c₀, pq, sq) = 100 := by
  unfold entryScore
  rw [fuzzRatio_self, fuzzRatio_self, fuzzTokenSetRatio_self pq h3, fuzzTokenSetRatio_self sq h4]
  norm_num

theorem entryScore_default_empty (e : Str × Str × Str) :
    entryScore ⟨1/2, 1/2⟩ ⟨1/2, 1/2⟩ [] [] e ≤ 50 := by
  unfold entryScore
  rw [fuzzTokenSetRatio_left_nil, fuzzTokenSetRatio_left_nil]
  have b1 : (fuzzRatio [] e.2.1 : ℚ) ≤ 100 := by exact_mod_cast fuzzRatio_le_100 _ _
  have b3 : (fuzzRatio [] e.2.2 : ℚ) ≤ 100 := by exact_mod_cast fuzzRatio_le_100 _ _
  push_cast
  linarith

/-- Claim C2, counterexample: the reference set
`["дон дон", "дон  дон"]` contains the canonical name `"дон  дон"` (double
space), yet `find_best_match` on it returns the other entry `"дон дон"` with
score 100 — not the pair `(c, 100)` — because the first entry with the same
normalized form wins the strict-improvement scan. -/
theorem c2_identity_counterexample :
    find_best_match (mkRegionMatcher [] (some [strToCodes "дон дон", strToCodes "дон  дон"]) none)
        none none 65 (.pyStr (strToCodes "дон  дон")) =
      .ok ((some (strToCodes "дон дон"), some 100), []) ∧
    strToCodes "дон дон" ≠ strToCodes "дон  дон" := by
  constructor
  · have hpe : (mkRegionMatcher [] (some [strToCodes "дон дон", strToCodes "дон  дон"]) none).preprocessed_etalon =
        [(strToCodes "дон дон", strToCodes "дон дон", strToCodes "дон дон"),
         (strToCodes "дон  дон", strToCodes "дон дон", strToCodes "дон дон")] := by decide
    have hproc : _process_input
        (mkRegionMatcher [] (some [strToCodes "дон дон", strToCodes "дон  дон"]) none)
        (.pyStr (strToCodes "дон  дон")) = (strToCodes "дон дон", strToCodes "дон дон") := by
      decide
    have hts : fuzzTokenSetRatio (strToCodes "дон дон") (strToCodes "дон дон") = 100 := by decide
    simp only [find_best_match, scanBest, hpe, hproc, List.foldl_cons, List.foldl_nil,
      entryScore, fuzzRatio_self, hts, Option.getD_none]
    norm_num
  · decide

/-- Claim C3: with an empty reference set every `find_best_match` call at the
default threshold reaches the warning `print` with the loop variable
`etalon_name` unbound, so the call raises `NameError` instead of returning an
absent result without a diagnostic. -/
theorem c3_empty_reference_raises (input : PyVal) (w : Option Weights)
    (aw : Option ApproachWeights) :
    find_best_match (mkRegionMatcher [] none none) w aw 65 input = .error .nameError := by
  have hpe : (mkRegionMatcher [] none none).preprocessed_etalon = [] := rfl
  simp only [find_best_match, hpe, scanBest, List.foldl_nil, List.getLast?_nil]
  rw [if_pos (by norm_num)]

/-- Claim C1: on a below-threshold input the result keeps the internally
computed best name (`"ввв ггг"`) while reporting the score as absent — the
name is not discarded, contrary to the claim and the function's docstring. -/
theorem c1_below_threshold_keeps_name :
    find_best_match (mkRegionMatcher [] (some [strToCodes "ввв ггг"]) none) none none 65
      (.pyStr (strToCodes "ввв ждд")) =
    .ok ((some (strToCodes "ввв ггг"), none), [⟨117/2, strToCodes "ввв ггг"⟩]) := by
  have hpre : preprocessStr (strToCodes "ввв ггг") = strToCodes "ввв ггг" := by decide
  have hstem : stem_region_name (strToCodes "ввв ггг") = strToCodes "ввв ггг" := by decide
  have hlast : (mkRegionMatcher [] (some [strToCodes "ввв ггг"]) none).preprocessed_etalon.getLast? =
      some (strToCodes "ввв ггг", strToCodes "ввв ггг", strToCodes "ввв ггг") := by decide
  have hp : _process_input (mkRegionMatcher [] (some [strToCodes "ввв ггг"]) none)
      (.pyStr (strToCodes "ввв ждд")) = (strToCodes "ввв ждд", strToCodes "ввв ждд") := by decide
  have h1 : fuzzRatio (strToCodes "ввв ждд") (strToCodes "ввв ггг") = 57 := by decide
  have h2 : fuzzTokenSetRatio (strToCodes "ввв ждд") (strToCodes "ввв ггг") = 60 := by decide
  simp only [find_best_match, scanBest, hp, List.foldl, entryScore, hpre, hstem, h1, h2,
    hlast, Option.getD_none]
  norm_num

/-- Claim C8: `etalon_regions or ETALON_REGIONS` and
`abbreviations or DEFAULT_ABBREVIATIONS` treat an empty list and an empty
mapping as falsy: the constructor silently falls back to the defaults, and only
a non-empty argument overrides them. -/
theorem c8_empty_overrides_fall_back (mod et : List Str) (ab : List (Str × Str))
    (het : et ≠ []) (hab : ab ≠ []) :
    mkRegionMatcher mod (some []) none = mkRegionMatcher mod none none ∧
    mkRegionMatcher mod none (some []) = mkRegionMatcher mod none none ∧
    (mkRegionMatcher mod (some et) none).etalon = et ∧
    (mkRegionMatcher mod none (some ab)).abbreviations = ab := by
  refine ⟨rfl, rfl, ?_, ?_⟩
  · simp [mkRegionMatcher, pyOrList, List.isEmpty_iff, het]
  · simp [mkRegionMatcher, pyOrList, List.isEmpty_iff, hab]

/-- Witness for C8 at concrete values. -/
theorem c8_empty_overrides_fall_back_witness :
    ([strToCodes "ввв"] : List Str) ≠ [] ∧
    ([(strToCodes "ввв", strToCodes "ггг")] : List (Str × Str)) ≠ [] ∧
    (mkRegionMatcher [] (some []) none = mkRegionMatcher [] none none ∧
     mkRegionMatcher [] none (some []) = mkRegionMatcher [] none none ∧
     (mkRegionMatcher [] (some [strToCodes "ввв"]) none).etalon = [strToCodes "ввв"] ∧
     (mkRegionMatcher [] none (some [(strToCodes "ввв", strToCodes "ггг")])).abbreviations =
       [(strToCodes "ввв", strToCodes "ггг")]) :=
  ⟨by decide, by decide,
   c8_empty_overrides_fall_back [] [strToCodes "ввв"] [(strToCodes "ввв", strToCodes "ггг")]
     (by decide) (by decide)⟩

theorem find_best_match_above (m : RegionMatcher) (w : Option Weights)
    (aw : Option ApproachWeights) (th : ℚ) (input : PyVal)
    (hge : ¬ (scanBest (w.getD ⟨1/2, 1/2⟩) (aw.getD ⟨1/2, 1/2⟩) (_process_input m input).1
      (_process_input m input).2 m.preprocessed_etalon).2 < th) :
    find_best_match m w aw th input =
      .ok (((scanBest (w.getD ⟨1/2, 1/2⟩) (aw.getD ⟨1/2, 1/2⟩) (_process_input m input).1
        (_process_input m input).2 m.preprocessed_etalon).1,
        some (scanBest (w.getD ⟨1/2, 1/2⟩) (aw.getD ⟨1/2, 1/2⟩) (_process_input m input).1
        (_process_input m input).2 m.preprocessed_etalon).2), []) := by
  unfold find_best_match
  rw [if_neg hge]

theorem find_best_match_below (m : RegionMatcher) (w : Option Weights)
    (aw : Option ApproachWeights) (th : ℚ) (input : PyVal) (e : Str × Str × Str)
    (hlast : m.preprocessed_etalon.getLast? = some e)
    (hlt : (scanBest (w.getD ⟨1/2, 1/2⟩) (aw.getD ⟨1/2, 1/2⟩) (_process_input m input).1
      (_process_input m input).2 m.preprocessed_etalon).2 < th) :
    find_best_match m w aw th input =
      .ok (((scanBest (w.getD ⟨1/2, 1/2⟩) (aw.getD ⟨1/2, 1/2⟩) (_process_input m input).1
        (_process_input m input).2 m.preprocessed_etalon).1, none),
        [⟨(scanBest (w.getD ⟨1/2, 1/2⟩) (aw.getD ⟨1/2, 1/2⟩) (_process_input m input).1
        (_process_input m input).2 m.preprocessed_etalon).2, e.1⟩]) := by
  unfold find_best_match
  rw [if_pos hlt, hlast]

/-- Claim C2, amended: for a canonical name `c` of the reference set whose
normalized form is not an abbreviation key and whose normalized and stemmed
forms are not erased by the fuzzy scorer's `full_process`, `find_best_match(c)`
with default weights and threshold returns score 100 with no warning; the
returned name is the first entry of the reference set attaining the maximal
blended score 100 — `c` itself whenever every earlier entry scores strictly
below 100, in particular when `c` is the first entry. -/
theorem c2_identity_amended (m : RegionMatcher) (c : Str)
    (hm : m.preprocessed_etalon = precomputeEtalon m.etalon)
    (hc : c ∈ m.etalon)
    (habbr : m.abbreviations.lookup (preprocessStr c) = none)
    (h3 : ¬ full_process (preprocessStr c) = [])
    (h4 : ¬ full_process (stem_region_name (preprocessStr c)) = []) :
    (∃ nm, find_best_match m none none 65 (.pyStr c) = .ok ((nm, some 100), [])) ∧
    (∀ l1 e l2, m.preprocessed_etalon = l1 ++ e :: l2 →
      entryScore ⟨1/2, 1/2⟩ ⟨1/2, 1/2⟩ (preprocessStr c) (stem_region_name (preprocessStr c)) e
        = 100 →
      (∀ e' ∈ l1, entryScore ⟨1/2, 1/2⟩ ⟨1/2, 1/2⟩ (preprocessStr c)
        (stem_region_name (preprocessStr c)) e' < 100) →
      find_best_match m none none 65 (.pyStr c) = .ok ((some e.1, some 100), [])) ∧
    (∀ rest, m.etalon = c :: rest →
      find_best_match m none none 65 (.pyStr c) = .ok ((some c, some 100), [])) := by
  have hproc : _process_input m (.pyStr c) =
      (preprocessStr c, stem_region_name (preprocessStr c)) := by
    have hpi : processedInput m (.pyStr c) = preprocessStr c := by
      unfold processedInput
      rw [show preprocess_name (.pyStr c) = preprocessStr c from rfl, habbr]
    unfold _process_input
    rw [hpi]
  have hself : entryScore ⟨1/2, 1/2⟩ ⟨1/2, 1/2⟩ (preprocessStr c)
      (stem_region_name (preprocessStr c)) (c, preprocessStr c, stem_region_name (preprocessStr c)) =
      100 := entryScore_default_self c _ _ h3 h4
  have hub : ∀ e ∈ m.preprocessed_etalon,
      entryScore ⟨1/2, 1/2⟩ ⟨1/2, 1/2⟩ (preprocessStr c)
        (stem_region_name (preprocessStr c)) e ≤ 100 :=
    fun e _ => entryScore_default_le_100 _ _ e
  have hmem : (c, preprocessStr c, stem_region_name (preprocessStr c)) ∈ m.preprocessed_etalon := by
    rw [hm]
    exact List.mem_map_of_mem _ hc
  have hsnd : (scanBest ⟨1/2, 1/2⟩ ⟨1/2, 1/2⟩ (preprocessStr c)
      (stem_region_name (preprocessStr c)) m.preprocessed_etalon).2 = 100 := by
    apply le_antisymm
    · exact scanBest_snd_le _ _ _ _ _ _ 100 (by norm_num) hub
    · have h := scanBest_snd_ge ⟨1/2, 1/2⟩ ⟨1/2, 1/2⟩ (preprocessStr c)
        (stem_region_name (preprocessStr c)) m.preprocessed_etalon (none, 0) _ hmem
      rwa [hself] at h
  refine ⟨?_, ?_, ?_⟩
  · have hge : ¬ (scanBest ((none : Option Weights).getD ⟨1/2, 1/2⟩)
        ((none : Option ApproachWeights).getD ⟨1/2, 1/2⟩) (_process_input m (.pyStr c)).1
        (_process_input m (.pyStr c)).2 m.preprocessed_etalon).2 < 65 := by
      simp only [hproc, Option.getD_none]
      rw [hsnd]
      norm_num
    have h := find_best_match_above m none none 65 (.pyStr c) hge
    simp only [hproc, Option.getD_none] at h
    rw [hsnd] at h
    exact ⟨_, h⟩
  · intro l1 e l2 hpe he hlt
    have h0 : 0 < entryScore ⟨1/2, 1/2⟩ ⟨1/2, 1/2⟩ (preprocessStr c)
        (stem_region_name (preprocessStr c)) e := by
      rw [he]
      norm_num
    have hlt1 : ∀ e' ∈ l1, entryScore ⟨1/2, 1/2⟩ ⟨1/2, 1/2⟩ (preprocessStr c)
        (stem_region_name (preprocessStr c)) e' <
        entryScore ⟨1/2, 1/2⟩ ⟨1/2, 1/2⟩ (preprocessStr c)
          (stem_region_name (preprocessStr c)) e := by
      intro e' h'
      rw [he]
      exact hlt e' h'
    have hub2 : ∀ e' ∈ l2, entryScore ⟨1/2, 1/2⟩ ⟨1/2, 1/2⟩ (preprocessStr c)
        (stem_region_name (preprocessStr c)) e' ≤
        entryScore ⟨1/2, 1/2⟩ ⟨1/2, 1/2⟩ (preprocessStr c)
          (stem_region_name (preprocessStr c)) e := by
      intro e' h'
      rw [he]
      exact entryScore_default_le_100 _ _ e'
    have hscan : scanBest ⟨1/2, 1/2⟩ ⟨1/2, 1/2⟩ (preprocessStr c)
        (stem_region_name (preprocessStr c)) m.preprocessed_etalon = (some e.1, 100) := by
      rw [hpe, scanBest_first_max ⟨1/2, 1/2⟩ ⟨1/2, 1/2⟩ (preprocessStr c)
        (stem_region_name (preprocessStr c)) l1 l2 e h0 hlt1 hub2, he]
    have hge : ¬ (scanBest ((none : Option Weights).getD ⟨1/2, 1/2⟩)
        ((none : Option ApproachWeights).getD ⟨1/2, 1/2⟩) (_process_input m (.pyStr c)).1
        (_process_input m (.pyStr c)).2 m.preprocessed_etalon).2 < 65 := by
      simp only [hproc, Option.getD_none]
      rw [hscan]
      norm_num
    have h := find_best_match_above m none none 65 (.pyStr c) hge
    simp only [hproc, Option.getD_none] at h
    rw [hscan] at h
    exact h
  · intro rest hrest
    have hpe : m.preprocessed_etalon =
        (c, preprocessStr c, stem_region_name (preprocessStr c)) :: precomputeEtalon rest := by
      rw [hm, hrest]
      rfl
    have hscan : scanBest ⟨1/2, 1/2⟩ ⟨1/2, 1/2⟩ (preprocessStr c)
        (stem_region_name (preprocessStr c)) m.preprocessed_etalon =
        (some c, 100) := by
      unfold scanBest
      rw [hpe]
      simp only [List.foldl_cons, hself]
      rw [if_pos (by norm_num)]
      exact scanBest_stay _ _ _ _ _ _ _ (fun e _ => entryScore_default_le_100 _ _ e)
    have hge : ¬ (scanBest ((none : Option Weights).getD ⟨1/2, 1/2⟩)
        ((none : Option ApproachWeights).getD ⟨1/2, 1/2⟩) (_process_input m (.pyStr c)).1
        (_process_input m (.pyStr c)).2 m.preprocessed_etalon).2 < 65 := by
      simp only [hproc, Option.getD_none]
      rw [hscan]
      norm_num
    have h := find_best_match_above m none none 65 (.pyStr c) hge
    simp only [hproc, Option.getD_none] at h
    rw [hscan] at h
    exact h

/-- Witness for C2's amended theorem: the one-entry reference set `["ввв"]` and
its canonical name `"ввв"`, on which `find_best_match` returns `("ввв", 100)`. -/
theorem c2_identity_amended_witness :
    find_best_match (mkRegionMatcher [] (some [strToCodes "ввв"]) none) none none 65
      (.pyStr (strToCodes "ввв")) = .ok ((some (strToCodes "ввв"), some 100), []) :=
  (c2_identity_amended (mkRegionMatcher [] (some [strToCodes "ввв"]) none) (strToCodes "ввв")
    (by decide) (by decide) (by decide) (by decide) (by decide)).2.2 [] (by decide)

/-- Claim C7: a non-string input preprocesses to the empty string without an
exception, and `find_best_match` on it (non-empty reference set, default
weights and threshold, no empty abbreviation key) returns without raising and
with the score absent. -/
theorem c7_nonstring_safe (m : RegionMatcher) (v : PyVal)
    (hv : ∀ s, v ≠ .pyStr s)
    (hne : m.preprocessed_etalon ≠ [])
    (habbr : m.abbreviations.lookup [] = none) :
    preprocess_name v = [] ∧
    ∃ bm d, find_best_match m none none 65 v = .ok ((bm, none), d) := by
  have hpn : preprocess_name v = [] := by
    cases v with
    | pyStr s => exact absurd rfl (hv s)
    | pyNone => rfl
    | pyRat q => rfl
  refine ⟨hpn, ?_⟩
  have hproc : _process_input m v = ([], []) := by
    have hpi : processedInput m v = [] := by
      unfold processedInput
      rw [hpn, habbr]
    unfold _process_input
    rw [hpi]
    rfl
  have hle : (scanBest ⟨1/2, 1/2⟩ ⟨1/2, 1/2⟩ [] [] m.preprocessed_etalon).2 ≤ 50 :=
    scanBest_snd_le _ _ _ _ _ (none, 0) 50 (by norm_num) (fun e _ => entryScore_default_empty e)
  obtain ⟨e, he⟩ : ∃ e, m.preprocessed_etalon.getLast? = some e := by
    cases hl : m.preprocessed_etalon.getLast? with
    | some e => exact ⟨e, rfl⟩
    | none => exact absurd (List.getLast?_eq_none_iff.mp hl) hne
  have hlt : (scanBest ((none : Option Weights).getD ⟨1/2, 1/2⟩)
      ((none : Option ApproachWeights).getD ⟨1/2, 1/2⟩) (_process_input m v).1
      (_process_input m v).2 m.preprocessed_etalon).2 < 65 := by
    simp only [hproc, Option.getD_none]
    exact lt_of_le_of_lt hle (by norm_num)
  exact ⟨_, _, find_best_match_below m none none 65 v e he hlt⟩

/-- Witness for C7: the default-abbreviation matcher over `["ввв"]` applied to
`None` and to the number 12345. -/
theorem c7_nonstring_safe_witness :
    (preprocess_name .pyNone = [] ∧
      ∃ bm d, find_best_match (mkRegionMatcher [] (some [strToCodes "ввв"]) none)
        none none 65 .pyNone = .ok ((bm, none), d)) ∧
    (preprocess_name (.pyRat 12345) = [] ∧
      ∃ bm d, find_best_match (mkRegionMatcher [] (some [strToCodes "ввв"]) none)
        none none 65 (.pyRat 12345) = .ok ((bm, none), d)) :=
  ⟨c7_nonstring_safe (mkRegionMatcher [] (some [strToCodes "ввв"]) none) .pyNone
     (fun s h => PyVal.noConfusion h) (by decide) (by decide),
   c7_nonstring_safe (mkRegionMatcher [] (some [strToCodes "ввв"]) none) (.pyRat 12345)
     (fun s h => PyVal.noConfusion h) (by decide) (by decide)⟩

theorem occursIn_append_left (w t q : Str) (h : occursIn w t = true) :
    occursIn w (t ++ q) = true := by
  induction t with
  | nil =>
    unfold occursIn at h
    have hw : w = [] := by simpa [List.isEmpty_iff] using h
    subst hw
    cases q with
    | nil => rfl
    | cons c cs => simp [occursIn, List.isPrefixOf]
  | cons c cs ih =>
    unfold occursIn at h ⊢
    rcases Bool.or_eq_true_iff.mp h with h1 | h2
    · apply Bool.or_eq_true_iff.mpr
      left
      have hpre : w <+: (c :: cs) := List.isPrefixOf_iff_prefix.mp h1
      exact List.isPrefixOf_iff_prefix.mpr (hpre.trans (List.prefix_append _ _))
    · apply Bool.or_eq_true_iff.mpr
      right
      exact ih h2

theorem occursIn_append_right (w t q : Str) (h : occursIn w q = true) :
    occursIn w (t ++ q) = true := by
  induction t with
  | nil => simpa using h
  | cons c cs ih =>
    unfold occursIn
    apply Bool.or_eq_true_iff.mpr
    right
    exact ih

theorem occursIn_of_part (w p u q : Str) (h : occursIn w u = true) :
    occursIn w (p ++ u ++ q) = true := by
  rw [List.append_assoc]
  exact occursIn_append_right w p (u ++ q) (occursIn_append_left w u q h)

theorem occursIn_false_of_part (w p u q s : Str) (hs : s = p ++ u ++ q)
    (h : occursIn w s = false) : occursIn w u = false := by
  by_contra hc
  rw [Bool.not_eq_false] at hc
  rw [hs, occursIn_of_part w p u q hc] at h
  exact Bool.true_eq_false.mp h

theorem prefixBefore_is_pre (w : Str) : ∀ (s : Str), ∃ q, s = prefixBefore w s ++ q := by
  intro s
  induction s with
  | nil => exact ⟨[], rfl⟩
  | cons c cs ih =>
    unfold prefixBefore
    by_cases hp : w.isPrefixOf (c :: cs)
    · exact ⟨c :: cs, by simp [hp]⟩
    · obtain ⟨q, hq⟩ := ih
      refine ⟨q, ?_⟩
      simp only [hp, Bool.false_eq_true, if_false, List.cons_append]
      exact congrArg (c :: ·) hq

theorem prefixBefore_no_occurs (w : Str) (hw : w ≠ []) :
    ∀ (s : Str), occursIn w (prefixBefore w s) = false := by
  intro s
  induction s with
  | nil =>
    simp [prefixBefore, occursIn, List.isEmpty_iff, hw]
  | cons c cs ih =>
    unfold prefixBefore
    by_cases hp : w.isPrefixOf (c :: cs)
    · simp [hp, occursIn, List.isEmpty_iff, hw]
    · simp only [hp, Bool.false_eq_true, if_false]
      unfold occursIn
      apply Bool.or_eq_false_iff.mpr
      refine ⟨?_, ih⟩
      by_contra hc
      rw [Bool.not_eq_false] at hc
      obtain ⟨q, hq⟩ := prefixBefore_is_pre w cs
      have h1 : w <+: (c :: prefixBefore w cs) := List.isPrefixOf_iff_prefix.mp hc
      have h2 : (c :: prefixBefore w cs) <+: (c :: cs) := by
        refine ⟨q, ?_⟩
        rw [List.cons_append]
        exact congrArg (c :: ·) hq.symm
      exact hp (List.isPrefixOf_iff_prefix.mpr (h1.trans h2))

theorem stripStr_part (t : Str) : ∃ p q, t = p ++ stripStr t ++ q := by
  obtain ⟨p, hp⟩ : dropLeadWs t <:+ t := List.dropWhile_suffix _
  obtain ⟨p', hp'⟩ : (dropLeadWs t).reverse.dropWhile (fun c => isWsChar c) <:+
      (dropLeadWs t).reverse := List.dropWhile_suffix _
  refine ⟨p, p'.reverse, ?_⟩
  have h1 := congrArg List.reverse hp'
  rw [List.reverse_append, List.reverse_reverse] at h1
  have h2 : dropLeadWs t = stripStr t ++ p'.reverse := by
    unfold stripStr
    exact h1.symm
  calc t = p ++ dropLeadWs t := hp.symm
    _ = p ++ (stripStr t ++ p'.reverse) := by rw [h2]
    _ = p ++ stripStr t ++ p'.reverse := by rw [List.append_assoc]

theorem stepExtra_part (t w : Str) : ∃ p q, t = p ++ stepExtra t w ++ q := by
  unfold stepExtra
  by_cases h : occursIn w t
  · obtain ⟨q0, hq0⟩ := prefixBefore_is_pre w t
    obtain ⟨p1, q1, hpq⟩ := stripStr_part (prefixBefore w t)
    refine ⟨p1, q1 ++ q0, ?_⟩
    rw [if_pos h]
    calc t = prefixBefore w t ++ q0 := hq0
      _ = (p1 ++ stripStr (prefixBefore w t) ++ q1) ++ q0 := by rw [← hpq]
      _ = p1 ++ stripStr (prefixBefore w t) ++ (q1 ++ q0) := by
          simp [List.append_assoc]
  · refine ⟨[], [], ?_⟩
    rw [if_neg h]
    simp

theorem stepExtra_no_occurs (w t : Str) (hw : w ≠ []) :
    occursIn w (stepExtra t w) = false := by
  unfold stepExtra
  by_cases h : occursIn w t
  · rw [if_pos h]
    obtain ⟨p1, q1, hpq⟩ := stripStr_part (prefixBefore w t)
    exact occursIn_false_of_part w p1 _ q1 _ hpq (prefixBefore_no_occurs w hw t)
  · rw [if_neg h]
    simpa using h

theorem stripExtra_part (ws : List Str) : ∀ (t : Str), ∃ p q, t = p ++ stripExtra ws t ++ q := by
  induction ws with
  | nil => intro t; exact ⟨[], [], by simp [stripExtra]⟩
  | cons a as ih =>
    intro t
    have hstep : stripExtra (a :: as) t = stripExtra as (stepExtra t a) := rfl
    obtain ⟨p0, q0, h0⟩ := stepExtra_part t a
    obtain ⟨p1, q1, h1⟩ := ih (stepExtra t a)
    refine ⟨p0 ++ p1, q1 ++ q0, ?_⟩
    rw [hstep]
    calc t = p0 ++ stepExtra t a ++ q0 := h0
      _ = p0 ++ (p1 ++ stripExtra as (stepExtra t a) ++ q1) ++ q0 := by rw [← h1]
      _ = p0 ++ p1 ++ stripExtra as (stepExtra t a) ++ (q1 ++ q0) := by
          simp [List.append_assoc]

theorem stripExtra_no_occurs (ws : List Str) (hws : ∀ w ∈ ws, w ≠ []) :
    ∀ (s : Str) (w : Str), w ∈ ws → occursIn w (stripExtra ws s) = false := by
  induction ws with
  | nil => intro s w hw; cases hw
  | cons a as ih =>
    intro s w hw
    have hstep : stripExtra (a :: as) s = stripExtra as (stepExtra s a) := rfl
    rcases List.mem_cons.mp hw with rfl | hmem
    · have h1 : occursIn w (stepExtra s w) = false :=
        stepExtra_no_occurs w s (hws w hw)
      obtain ⟨p, q, hpq⟩ := stripExtra_part as (stepExtra s w)
      rw [hstep]
      exact occursIn_false_of_part w p _ q _ hpq h1
    · rw [hstep]
      exact ih (fun u hu => hws u (List.mem_cons_of_mem a hu)) (stepExtra s a) w hmem

/-- Claim C4, counterexample: on
`"ггг после ддд в границах еее"` the source's loop truncates twice (first at
`"в границах"`, then at `"после"`), producing `"ггг"`, while the claimed
stop-after-first-phrase behaviour would produce `"ггг после ддд"`. -/
theorem c4_first_only_counterexample :
    preprocessStr (strToCodes "ггг после ддд в границах еее") = strToCodes "ггг" ∧
    preprocessStrFirstOnly (strToCodes "ггг после ддд в границах еее") =
      strToCodes "ггг после ддд" ∧
    preprocessStr (strToCodes "ггг после ддд в границах еее") ≠
      preprocessStrFirstOnly (strToCodes "ггг после ддд в границах еее") :=
  ⟨by decide, by decide, by decide⟩

/-- Claim C4, amended: the qualifier phrases are tested in the fixed list
order, and every phrase found in the current string triggers a truncation (the
loop has no early exit); consequently no qualifier phrase survives into the
output of `preprocess_name`. -/
theorem c4_all_phrases_stripped (s : Str) :
    ∀ w ∈ EXTRA_DATA, occursIn w (preprocess_name (.pyStr s)) = false := by
  intro w hw
  show occursIn w (preprocessStr s) = false
  unfold preprocessStr
  exact stripExtra_no_occurs EXTRA_DATA (by decide) _ w hw

/-- Witness for C4's amended theorem: the phrase `"после"` does not survive in
the preprocessing of the counterexample input. -/
theorem c4_all_phrases_stripped_witness :
    strToCodes "после" ∈ EXTRA_DATA ∧
    occursIn (strToCodes "после")
      (preprocess_name (.pyStr (strToCodes "ггг после ддд в границах еее"))) = false :=
  ⟨by decide, c4_all_phrases_stripped (strToCodes "ггг после ддд в границах еее")
    (strToCodes "после") (by decide)⟩

/-- Proof-side predicate: no two adjacent characters of the string both
satisfy `pr` (used to state when a run-collapse is the identity). -/
def noAdjP (pr : Nat → Bool) : Str → Bool
  | [] => true
  | c :: cs =>
    (if pr c then (match cs.head? with | some d => !pr d | none => true) else true) && noAdjP pr cs

theorem lookup_none_of_no_key {t : List (Nat × Nat)} {k : Nat} (h : ∀ p ∈ t, k ≠ p.1) :
    t.lookup k = none := by
  induction t with
  | nil => rfl
  | cons a as ih =>
    obtain ⟨k1, v1⟩ := a
    have hk := h (k1, v1) (List.mem_cons_self _ _)
    have hbeq : (k == k1) = false := by simpa using hk
    simp only [List.lookup, hbeq]
    exact ih (fun p hp => h p (List.mem_cons_of_mem _ hp))

theorem lookup_some_mem {t : List (Nat × Nat)} {k v : Nat} (h : t.lookup k = some v) :
    (k, v) ∈ t := by
  induction t with
  | nil => simp [List.lookup] at h
  | cons a as ih =>
    obtain ⟨k1, v1⟩ := a
    simp only [List.lookup] at h
    cases hbeq : (k == k1) with
    | true =>
      rw [hbeq] at h
      simp only [Option.some.injEq] at h
      subst h
      have hkk : k = k1 := by simpa using hbeq
      subst hkk
      exact List.mem_cons_self _ _
    | false =>
      rw [hbeq] at h
      exact List.mem_cons_of_mem _ (ih h)

theorem applyLatinTable_eq_map (t : List (Nat × Nat))
    (hvk : ∀ p ∈ t, ∀ q ∈ t, p.2 ≠ q.1) :
    ∀ (s : Str), applyLatinTable t s = s.map (fun c => ((t.lookup c).getD c)) := by
  induction t with
  | nil =>
    intro s
    show s = s.map (fun c => ((List.lookup c ([] : List (Nat × Nat))).getD c))
    simp [List.lookup]
  | cons a as ih =>
    intro s
    obtain ⟨k, v⟩ := a
    have hstep : applyLatinTable ((k, v) :: as) s = applyLatinTable as (replaceAll k v s) := rfl
    rw [hstep, ih (fun p hp q hq =>
      hvk p (List.mem_cons_of_mem _ hp) q (List.mem_cons_of_mem _ hq))]
    unfold replaceAll
    rw [List.map_map]
    apply List.map_congr_left
    intro c _
    simp only [Function.comp]
    by_cases hc : c = k
    · subst hc
      rw [if_pos rfl]
      have hvnk : List.lookup v as = none :=
        lookup_none_of_no_key (fun q hq =>
          hvk (c, v) (List.mem_cons_self _ _) q (List.mem_cons_of_mem _ hq))
      have hbeq : (c == c) = true := by simp
      simp only [List.lookup, hbeq, hvnk, Option.getD_some, Option.getD_none]
    · rw [if_neg hc]
      have hbeq : (c == k) = false := by simpa using hc
      simp only [List.lookup, hbeq]

theorem applyLatin_eq_map_latinMap (s : Str) :
    applyLatinTable LATIN_TO_CYRILLIC s = s.map latinMap :=
  applyLatinTable_eq_map LATIN_TO_CYRILLIC (by decide) s

theorem latinMap_not_key (c : Nat) : LATIN_TO_CYRILLIC.lookup (latinMap c) = none := by
  unfold latinMap
  cases h : LATIN_TO_CYRILLIC.lookup c with
  | none => simpa using h
  | some v =>
    simp only [Option.getD_some]
    have hmem := lookup_some_mem h
    have hval : ∀ p ∈ LATIN_TO_CYRILLIC, LATIN_TO_CYRILLIC.lookup p.2 = none := by decide
    exact hval (c, v) hmem

theorem map_latinMap_fix (s : Str) (h : ∀ c ∈ s, LATIN_TO_CYRILLIC.lookup c = none) :
    s.map latinMap = s := by
  have : s.map latinMap = s.map id := by
    apply List.map_congr_left
    intro c hc
    unfold latinMap
    rw [h c hc]
    rfl
  rw [this, List.map_id]

theorem collapseRunAux_chars (pr : Nat → Bool) :
    ∀ (s : Str) (b : Bool), ∀ c ∈ collapseRunAux pr b s, c = 32 ∨ (c ∈ s ∧ pr c = false) := by
  intro s
  induction s with
  | nil => intro b c hc; simp [collapseRunAux] at hc
  | cons a as ih =>
    intro b c hc
    unfold collapseRunAux at hc
    by_cases hp : pr a
    · rw [if_pos hp] at hc
      cases b with
      | true =>
        simp only [if_true] at hc
        rcases ih true c hc with h | h
        · exact Or.inl h
        · exact Or.inr ⟨List.mem_cons_of_mem _ h.1, h.2⟩
      | false =>
        simp only [Bool.false_eq_true, if_false, List.mem_cons] at hc
        rcases hc with rfl | hc
        · exact Or.inl rfl
        · rcases ih true c hc with h | h
          · exact Or.inl h
          · exact Or.inr ⟨List.mem_cons_of_mem _ h.1, h.2⟩
    · rw [if_neg hp] at hc
      rcases List.mem_cons.mp hc with rfl | hc
      · exact Or.inr ⟨List.mem_cons_self _ _, by simpa using hp⟩
      · rcases ih false c hc with h | h
        · exact Or.inl h
        · exact Or.inr ⟨List.mem_cons_of_mem _ h.1, h.2⟩

theorem collapseRunAux_id (pr : Nat → Bool) :
    ∀ (s : Str) (b : Bool), (∀ c ∈ s, pr c = false) → collapseRunAux pr b s = s := by
  intro s
  induction s with
  | nil => intro b _; rfl
  | cons a as ih =>
    intro b h
    unfold collapseRunAux
    rw [if_neg (by simp [h a (List.mem_cons_self _ _)])]
    rw [ih false (fun c hc => h c (List.mem_cons_of_mem _ hc))]

theorem collapseRunAux_true_head (pr : Nat → Bool) :
    ∀ (s : Str) (d : Nat), (collapseRunAux pr true s).head? = some d → pr d = false := by
  intro s
  induction s with
  | nil => intro d hd; simp [collapseRunAux] at hd
  | cons a as ih =>
    intro d hd
    unfold collapseRunAux at hd
    by_cases hp : pr a
    · rw [if_pos hp] at hd
      exact ih d (by simpa using hd)
    · rw [if_neg hp] at hd
      simp only [List.head?_cons, Option.some.injEq] at hd
      subst hd
      simpa using hp

theorem noAdjP_cons_tail {pr : Nat → Bool} {c : Nat} {cs : Str}
    (h : noAdjP pr (c :: cs) = true) : noAdjP pr cs = true := by
  unfold noAdjP at h
  exact (Bool.and_eq_true_iff.mp h).2

theorem collapseRunAux_noAdj (pr : Nat → Bool) (hp32 : pr 32 = true) :
    ∀ (s : Str) (b : Bool), noAdjP pr (collapseRunAux pr b s) = true := by
  intro s
  induction s with
  | nil => intro b; rfl
  | cons a as ih =>
    intro b
    unfold collapseRunAux
    by_cases hp : pr a
    · rw [if_pos hp]
      cases b with
      | true => exact ih true
      | false =>
        simp only [Bool.false_eq_true, if_false]
        unfold noAdjP
        apply Bool.and_eq_true_iff.mpr
        refine ⟨?_, ih true⟩
        rw [if_pos hp32]
        cases hh : (collapseRunAux pr true as).head? with
        | none => rfl
        | some d => simp [collapseRunAux_true_head pr as d hh]
    · rw [if_neg hp]
      unfold noAdjP
      apply Bool.and_eq_true_iff.mpr
      refine ⟨?_, ih false⟩
      rw [if_neg hp]

theorem collapseRunAux_fix (pr : Nat → Bool) :
    ∀ (s : Str), (∀ c ∈ s, pr c = true → c = 32) → noAdjP pr s = true →
      collapseRunAux pr false s = s := by
  intro s
  induction s with
  | nil => intro _ _; rfl
  | cons a as ih =>
    intro h32 hadj
    have htail := noAdjP_cons_tail hadj
    have ihas : collapseRunAux pr false as = as :=
      ih (fun c hc hpc => h32 c (List.mem_cons_of_mem _ hc) hpc) htail
    unfold collapseRunAux
    by_cases hp : pr a
    · rw [if_pos hp]
      have ha : a = 32 := h32 a (List.mem_cons_self _ _) hp
      cases as with
      | nil => simp [collapseRunAux, ha]
      | cons d ds =>
        have hd : pr d = false := by
          unfold noAdjP at hadj
          have h1 := (Bool.and_eq_true_iff.mp hadj).1
          rw [if_pos hp] at h1
          simpa using h1
        have h2 : collapseRunAux pr true (d :: ds) = d :: collapseRunAux pr false ds := by
          conv_lhs => unfold collapseRunAux
          rw [if_neg (by simp [hd])]
        have h3 : collapseRunAux pr false (d :: ds) = d :: collapseRunAux pr false ds := by
          conv_lhs => unfold collapseRunAux
          rw [if_neg (by simp [hd])]
        rw [h2, ← h3, ihas, ha]
        simp
    · rw [if_neg hp, ihas]

theorem noAdjP_suffix {pr : Nat → Bool} : ∀ {m l : Str}, l <:+ m →
    noAdjP pr m = true → noAdjP pr l = true := by
  intro m
  induction m with
  | nil =>
    intro l hl hm
    rw [List.suffix_nil.mp hl]
    rfl
  | cons a as ih =>
    intro l hl hm
    rcases List.suffix_cons_iff.mp hl with rfl | hl'
    · exact hm
    · exact ih hl' (noAdjP_cons_tail hm)

theorem noAdjP_take {pr : Nat → Bool} : ∀ (s : Str) (n : Nat),
    noAdjP pr s = true → noAdjP pr (s.take n) = true := by
  intro s
  induction s with
  | nil => intro n _; simp [noAdjP]
  | cons a as ih =>
    intro n h
    cases n with
    | zero => rfl
    | succ k =>
      rw [List.take_succ_cons]
      unfold noAdjP
      apply Bool.and_eq_true_iff.mpr
      refine ⟨?_, ih k (noAdjP_cons_tail h)⟩
      by_cases hp : pr a
      · rw [if_pos hp]
        unfold noAdjP at h
        have h1 := (Bool.and_eq_true_iff.mp h).1
        rw [if_pos hp] at h1
        cases as with
        | nil => simp
        | cons d ds =>
          cases k with
          | zero => simp
          | succ j =>
            rw [List.take_succ_cons]
            simpa using h1
      · rw [if_neg hp]

theorem noAdjP_map {pr : Nat → Bool} (f : Nat → Nat) (hf : ∀ c, pr (f c) = pr c) :
    ∀ (s : Str), noAdjP pr s = true → noAdjP pr (s.map f) = true := by
  intro s
  induction s with
  | nil => intro _; rfl
  | cons a as ih =>
    intro h
    rw [List.map_cons]
    unfold noAdjP
    apply Bool.and_eq_true_iff.mpr
    refine ⟨?_, ih (noAdjP_cons_tail h)⟩
    by_cases hp : pr (f a)
    · rw [if_pos hp]
      unfold noAdjP at h
      have h1 := (Bool.and_eq_true_iff.mp h).1
      rw [if_pos (by rwa [hf a] at hp)] at h1
      cases as with
      | nil => simp
      | cons d ds =>
        rw [List.map_cons]
        simp only [List.head?_cons] at h1 ⊢
        rw [hf d]
        exact h1
    · rw [if_neg hp]

theorem noAdjP_part {pr : Nat → Bool} {t p u q : Str} (ht : t = p ++ u ++ q)
    (h : noAdjP pr t = true) : noAdjP pr u = true := by
  have h1 : t.drop p.length = u ++ q := by
    rw [ht, List.append_assoc, List.drop_left]
  have h2 : (u ++ q).take u.length = u := List.take_left u q
  have h3 : noAdjP pr (t.drop p.length) = true :=
    noAdjP_suffix (List.drop_suffix _ _) h
  rw [h1] at h3
  have h4 := noAdjP_take (u ++ q) u.length h3
  rwa [h2] at h4

theorem stripStr_drop_take (s : Str) : ∃ n k, stripStr s = (s.drop n).take k := by
  obtain ⟨p, hp⟩ : dropLeadWs s <:+ s := List.dropWhile_suffix _
  have h1 : dropLeadWs s = s.drop p.length := by
    have h := congrArg (List.drop p.length) hp
    rw [List.drop_left] at h
    exact h
  obtain ⟨p', hp'⟩ : (dropLeadWs s).reverse.dropWhile (fun c => isWsChar c) <:+
      (dropLeadWs s).reverse := List.dropWhile_suffix _
  have h2 : (dropLeadWs s).reverse.dropWhile (fun c => isWsChar c) =
      (dropLeadWs s).reverse.drop p'.length := by
    have h := congrArg (List.drop p'.length) hp'
    rw [List.drop_left] at h
    exact h
  refine ⟨p.length, (dropLeadWs s).length - p'.length, ?_⟩
  unfold stripStr
  rw [h2, List.reverse_drop, List.reverse_reverse, List.length_reverse, h1]

theorem isWs_false_of_ranges (x : Nat)
    (h : (97 ≤ x ∧ x ≤ 122) ∨ (65 ≤ x ∧ x ≤ 90) ∨ (192 ≤ x ∧ x ≤ 255) ∨ x = 376 ∨
      (1024 ≤ x ∧ x ≤ 1119) ∨ x = 8490 ∨ x = 8491) :
    isWsChar x = false := by
  simp only [isWsChar, decide_eq_false_iff_not, wsNats, List.mem_cons, List.not_mem_nil,
    or_false]
  omega

theorem toLower_ws_id (c : Nat) (h : isWsChar c = true) : toLowerNat c = c := by
  have hmem : c ∈ wsNats := by simpa [isWsChar] using h
  fin_cases hmem <;> decide

theorem isWs_toLower (c : Nat) : isWsChar (toLowerNat c) = isWsChar c := by
  unfold toLowerNat
  split_ifs with h1 h2 h3 h4 h5 h6 h7
  · rw [isWs_false_of_ranges (c + 32) (by omega), isWs_false_of_ranges c (by omega)]
  · rw [isWs_false_of_ranges (c + 32) (by omega), isWs_false_of_ranges c (by omega)]
  · rw [isWs_false_of_ranges 255 (by omega), isWs_false_of_ranges c (by omega)]
  · rw [isWs_false_of_ranges (c + 32) (by omega), isWs_false_of_ranges c (by omega)]
  · rw [isWs_false_of_ranges (c + 80) (by omega), isWs_false_of_ranges c (by omega)]
  · rw [isWs_false_of_ranges 107 (by omega), isWs_false_of_ranges c (by omega)]
  · rw [isWs_false_of_ranges 229 (by omega), isWs_false_of_ranges c (by omega)]
  · rfl

theorem lookup_latin_none_of_gt {k : Nat} (h : 121 < k) :
    LATIN_TO_CYRILLIC.lookup k = none := by
  apply lookup_none_of_no_key
  intro p hp
  have hb : ∀ p ∈ LATIN_TO_CYRILLIC, p.1 ≤ 121 := by decide
  have := hb p hp
  omega

theorem toLower_not_dash (c : Nat) (h : isDashChar c = false) :
    isDashChar (toLowerNat c) = false := by
  unfold toLowerNat
  split_ifs with h1 h2 h3 h4 h5 h6 h7
  · simp only [isDashChar, decide_eq_false_iff_not]
    omega
  · simp only [isDashChar, decide_eq_false_iff_not]
    omega
  · simp only [isDashChar, decide_eq_false_iff_not]
    omega
  · simp only [isDashChar, decide_eq_false_iff_not]
    omega
  · simp only [isDashChar, decide_eq_false_iff_not]
    omega
  · simp only [isDashChar, decide_eq_false_iff_not]
    omega
  · simp only [isDashChar, decide_eq_false_iff_not]
    omega
  · exact h

theorem toLowerNat_of_not (c : Nat)
    (h : ¬(65 ≤ c ∧ c ≤ 90) ∧ ¬(192 ≤ c ∧ c ≤ 222 ∧ c ≠ 215) ∧ c ≠ 376 ∧
      ¬(1040 ≤ c ∧ c ≤ 1071) ∧ ¬(1024 ≤ c ∧ c ≤ 1039) ∧ c ≠ 8490 ∧ c ≠ 8491) :
    toLowerNat c = c := by
  unfold toLowerNat
  rw [if_neg h.1, if_neg h.2.1, if_neg h.2.2.1, if_neg h.2.2.2.1, if_neg h.2.2.2.2.1,
    if_neg h.2.2.2.2.2.1, if_neg h.2.2.2.2.2.2]

theorem toLower_idem (c : Nat) : toLowerNat (toLowerNat c) = toLowerNat c := by
  by_cases h1 : 65 ≤ c ∧ c ≤ 90
  · have e : toLowerNat c = c + 32 := by unfold toLowerNat; rw [if_pos h1]
    rw [e]
    exact toLowerNat_of_not _ (by omega)
  by_cases h2 : 192 ≤ c ∧ c ≤ 222 ∧ c ≠ 215
  · have e : toLowerNat c = c + 32 := by unfold toLowerNat; rw [if_neg h1, if_pos h2]
    rw [e]
    exact toLowerNat_of_not _ (by omega)
  by_cases h3 : c = 376
  · subst h3
    decide
  by_cases h4 : 1040 ≤ c ∧ c ≤ 1071
  · have e : toLowerNat c = c + 32 := by
      unfold toLowerNat
      rw [if_neg h1, if_neg h2, if_neg h3, if_pos h4]
    rw [e]
    exact toLowerNat_of_not _ (by omega)
  by_cases h5 : 1024 ≤ c ∧ c ≤ 1039
  · have e : toLowerNat c = c + 80 := by
      unfold toLowerNat
      rw [if_neg h1, if_neg h2, if_neg h3, if_neg h4, if_pos h5]
    rw [e]
    exact toLowerNat_of_not _ (by omega)
  by_cases h6 : c = 8490
  · subst h6
    decide
  by_cases h7 : c = 8491
  · subst h7
    decide
  have e : toLowerNat c = c :=
    toLowerNat_of_not c ⟨h1, h2, h3, h4, h5, h6, h7⟩
  rw [e]
  exact e

theorem mem_of_part {t p u q : Str} (ht : t = p ++ u ++ q) : ∀ c ∈ u, c ∈ t := by
  intro c hc
  rw [ht]
  simp [hc]

theorem stepExtra_trimmed (t w : Str)
    (hh : ∀ c, t.head? = some c → isWsChar c = false)
    (hl : ∀ c, t.getLast? = some c → isWsChar c = false) :
    (∀ c, (stepExtra t w).head? = some c → isWsChar c = false) ∧
    (∀ c, (stepExtra t w).getLast? = some c → isWsChar c = false) := by
  unfold stepExtra
  by_cases h : occursIn w t
  · rw [if_pos h]
    exact ⟨stripStr_head_not_ws _, stripStr_getLast_not_ws _⟩
  · rw [if_neg h]
    exact ⟨hh, hl⟩

theorem stripExtra_trimmed (ws : List Str) : ∀ (t : Str),
    (∀ c, t.head? = some c → isWsChar c = false) →
    (∀ c, t.getLast? = some c → isWsChar c = false) →
    (∀ c, (stripExtra ws t).head? = some c → isWsChar c = false) ∧
    (∀ c, (stripExtra ws t).getLast? = some c → isWsChar c = false) := by
  induction ws with
  | nil => intro t hh hl; exact ⟨hh, hl⟩
  | cons a as ih =>
    intro t hh hl
    have hs := stepExtra_trimmed t a hh hl
    exact ih (stepExtra t a) hs.1 hs.2

theorem stripExtra_id (ws : List Str) : ∀ (t : Str), (∀ w ∈ ws, occursIn w t = false) →
    stripExtra ws t = t := by
  induction ws with
  | nil => intro t _; rfl
  | cons a as ih =>
    intro t h
    have hstep : stepExtra t a = t := by
      unfold stepExtra
      rw [if_neg (by simp [h a (List.mem_cons_self _ _)])]
    show stripExtra as (stepExtra t a) = t
    rw [hstep]
    exact ih t (fun w hw => h w (List.mem_cons_of_mem _ hw))

theorem lowerStr_fix (s : Str) (h : ∀ c ∈ s, toLowerNat c = c) : lowerStr s = s := by
  unfold lowerStr
  have : s.map toLowerNat = s.map id := List.map_congr_left (fun c hc => h c hc)
  rw [this, List.map_id]

theorem preprocess_output_invariants (t : Str) :
    (∀ c ∈ preprocessStr t, isDashChar c = false) ∧
    (∀ c ∈ preprocessStr t, isWsChar c = true → c = 32) ∧
    noAdjP isWsChar (preprocessStr t) = true ∧
    (∀ c, (preprocessStr t).head? = some c → isWsChar c = false) ∧
    (∀ c, (preprocessStr t).getLast? = some c → isWsChar c = false) ∧
    (∀ c ∈ preprocessStr t, toLowerNat c = c) := by
  unfold preprocessStr
  set s1 := applyLatinTable LATIN_TO_CYRILLIC t with hs1
  set s2 := collapseRun isWsChar (collapseRun isDashChar s1) with hs2
  set s4 := stripStr s2 with hs4
  set s5 := lowerStr s4 with hs5
  have hchars2a := collapseRunAux_chars isDashChar s1 false
  have hdash2a : ∀ c ∈ collapseRun isDashChar s1, isDashChar c = false := by
    intro c hc
    rcases hchars2a c hc with rfl | ⟨_, hd⟩
    · decide
    · exact hd
  have hchars2 := collapseRunAux_chars isWsChar (collapseRun isDashChar s1) false
  have hdash2 : ∀ c ∈ s2, isDashChar c = false := by
    intro c hc
    rcases hchars2 c hc with rfl | ⟨hmem, _⟩
    · decide
    · exact hdash2a c hmem
  have h32s2 : ∀ c ∈ s2, isWsChar c = true → c = 32 := by
    intro c hc hw
    rcases hchars2 c hc with rfl | ⟨_, hnw⟩
    · rfl
    · rw [hw] at hnw
      exact absurd hnw (by simp)
  have hadj2 : noAdjP isWsChar s2 = true :=
    collapseRunAux_noAdj isWsChar (by decide) (collapseRun isDashChar s1) false
  obtain ⟨p4, q4, hpart4⟩ := stripStr_part s2
  have hdash4 : ∀ c ∈ s4, isDashChar c = false :=
    fun c hc => hdash2 c (mem_of_part hpart4 c hc)
  have h32s4 : ∀ c ∈ s4, isWsChar c = true → c = 32 :=
    fun c hc => h32s2 c (mem_of_part hpart4 c hc)
  have hadj4 : noAdjP isWsChar s4 = true := noAdjP_part hpart4 hadj2
  have hh4 : ∀ c, s4.head? = some c → isWsChar c = false := stripStr_head_not_ws s2
  have hl4 : ∀ c, s4.getLast? = some c → isWsChar c = false := stripStr_getLast_not_ws s2
  have hdash5 : ∀ c ∈ s5, isDashChar c = false := by
    intro c hc
    obtain ⟨d, hd, rfl⟩ := List.mem_map.mp hc
    exact toLower_not_dash d (hdash4 d hd)
  have hfix5 : ∀ c ∈ s5, toLowerNat c = c := by
    intro c hc
    obtain ⟨d, _, rfl⟩ := List.mem_map.mp hc
    exact toLower_idem d
  have h32s5 : ∀ c ∈ s5, isWsChar c = true → c = 32 := by
    intro c hc hw
    obtain ⟨d, hd, rfl⟩ := List.mem_map.mp hc
    rw [isWs_toLower d] at hw
    rw [h32s4 d hd hw]
    decide
  have hadj5 : noAdjP isWsChar s5 = true := noAdjP_map toLowerNat isWs_toLower s4 hadj4
  have hh5 : ∀ c, s5.head? = some c → isWsChar c = false := by
    intro c hc
    rw [hs5] at hc
    unfold lowerStr at hc
    rw [List.head?_map] at hc
    cases hh : s4.head? with
    | none => rw [hh] at hc; simp at hc
    | some d =>
      rw [hh] at hc
      simp only [Option.map_some'] at hc
      have hcd : toLowerNat d = c := by simpa using hc
      rw [← hcd, isWs_toLower d]
      exact hh4 d hh
  have hl5 : ∀ c, s5.getLast? = some c → isWsChar c = false := by
    intro c hc
    rw [hs5] at hc
    unfold lowerStr at hc
    rw [List.getLast?_map] at hc
    cases hh : s4.getLast? with
    | none => rw [hh] at hc; simp at hc
    | some d =>
      rw [hh] at hc
      simp only [Option.map_some'] at hc
      have hcd : toLowerNat d = c := by simpa using hc
      rw [← hcd, isWs_toLower d]
      exact hl4 d hh
  obtain ⟨p6, q6, hpart6⟩ := stripExtra_part EXTRA_DATA s5
  have htrim6 := stripExtra_trimmed EXTRA_DATA s5 hh5 hl5
  exact ⟨fun c hc => hdash5 c (mem_of_part hpart6 c hc),
    fun c hc => h32s5 c (mem_of_part hpart6 c hc),
    noAdjP_part hpart6 hadj5,
    htrim6.1, htrim6.2,
    fun c hc => hfix5 c (mem_of_part hpart6 c hc)⟩

/-- Claim C5, counterexample: `preprocess_name` is not idempotent.  The input
`"K"` (KELVIN SIGN, code point 8490) is not a transliteration key, so the
first pass only lowercases it — to the Latin letter `k` (107) — but the second
pass transliterates that `k` to the Cyrillic `к` (1082). -/
theorem c5_idempotence_counterexample :
    preprocess_name (.pyStr [8490]) = [107] ∧
    preprocess_name (.pyStr (preprocess_name (.pyStr [8490]))) = [1082] ∧
    preprocess_name (.pyStr (preprocess_name (.pyStr [8490]))) ≠
      preprocess_name (.pyStr [8490]) :=
  ⟨by decide, by decide, by decide⟩

/-- Claim C5, amended: `preprocess_name` is idempotent on every input whose
normalized output contains no key of the Latin-to-Cyrillic transliteration
table (in particular on every input that normalizes to purely Cyrillic text);
in general a second pass re-transliterates Latin key characters that the first
pass's lowercasing produced, and is not the identity. -/
theorem c5_preprocess_idempotent (s : Str)
    (hkey : ∀ c ∈ preprocess_name (.pyStr s), LATIN_TO_CYRILLIC.lookup c = none) :
    preprocess_name (.pyStr (preprocess_name (.pyStr s))) = preprocess_name (.pyStr s) := by
  show preprocessStr (preprocessStr s) = preprocessStr s
  obtain ⟨hdash, h32, hadj, hh, hl, hfix⟩ := preprocess_output_invariants s
  have hocc : ∀ w ∈ EXTRA_DATA, occursIn w (preprocessStr s) = false := fun w hw =>
    stripExtra_no_occurs EXTRA_DATA (by decide) _ w hw
  have e1 : applyLatinTable LATIN_TO_CYRILLIC (preprocessStr s) = preprocessStr s := by
    rw [applyLatin_eq_map_latinMap]
    exact map_latinMap_fix _ hkey
  have e2 : collapseRun isDashChar (preprocessStr s) = preprocessStr s :=
    collapseRunAux_id isDashChar (preprocessStr s) false hdash
  have e3 : collapseRun isWsChar (preprocessStr s) = preprocessStr s :=
    collapseRunAux_fix isWsChar (preprocessStr s) h32 hadj
  have e4 : stripStr (preprocessStr s) = preprocessStr s := stripStr_eq_self _ hh hl
  have e5 : lowerStr (preprocessStr s) = preprocessStr s := lowerStr_fix _ hfix
  have e6 : stripExtra EXTRA_DATA (preprocessStr s) = preprocessStr s :=
    stripExtra_id EXTRA_DATA _ hocc
  show stripExtra EXTRA_DATA (lowerStr (stripStr (collapseRun isWsChar (collapseRun isDashChar
      (applyLatinTable LATIN_TO_CYRILLIC (preprocessStr s)))))) = preprocessStr s
  rw [e1, e2, e3, e4, e5, e6]

/-- Witness for C5's amended theorem: the all-Cyrillic input `"ввв ггг"`, whose
normalized output contains no transliteration key, is a fixed point of a second
`preprocess_name` pass. -/
theorem c5_preprocess_idempotent_witness :
    (∀ c ∈ preprocess_name (.pyStr (strToCodes "ввв ггг")),
      LATIN_TO_CYRILLIC.lookup c = none) ∧
    preprocess_name (.pyStr (preprocess_name (.pyStr (strToCodes "ввв ггг")))) =
      preprocess_name (.pyStr (strToCodes "ввв ггг")) :=
  ⟨by decide, c5_preprocess_idempotent (strToCodes "ввв ггг") (by decide)⟩

/-- The result pair of a direct `find_best_match` call, for stating rowwise
agreement of the batch adapters (the error case, which a non-empty reference
set never reaches, is read as an absent pair). -/
def fbmPair (m : RegionMatcher) (w : Option Weights) (aw : Option ApproachWeights)
    (th : ℚ) (v : PyVal) : Option Str × Option ℚ :=
  match find_best_match m w aw th v with
  | .ok r => r.1
  | .error _ => (none, none)

theorem fbm_ok_exists (m : RegionMatcher) (w : Option Weights) (aw : Option ApproachWeights)
    (th : ℚ) (v : PyVal) (hne : m.preprocessed_etalon ≠ []) :
    ∃ r d, find_best_match m w aw th v = .ok (r, d) := by
  unfold find_best_match
  by_cases hlt : (scanBest (w.getD ⟨1/2, 1/2⟩) (aw.getD ⟨1/2, 1/2⟩) (_process_input m v).1
      (_process_input m v).2 m.preprocessed_etalon).2 < th
  · rw [if_pos hlt]
    cases hg : m.preprocessed_etalon.getLast? with
    | none => exact absurd (List.getLast?_eq_none_iff.mp hg) hne
    | some e => exact ⟨_, _, rfl⟩
  · rw [if_neg hlt]
    exact ⟨_, _, rfl⟩

theorem fbm_ok (m : RegionMatcher) (w : Option Weights) (aw : Option ApproachWeights)
    (th : ℚ) (v : PyVal) (hne : m.preprocessed_etalon ≠ []) :
    ∃ d, find_best_match m w aw th v = .ok (fbmPair m w aw th v, d) := by
  obtain ⟨r, d, hd⟩ := fbm_ok_exists m w aw th v hne
  refine ⟨d, ?_⟩
  unfold fbmPair
  rw [hd]

theorem mapM_ok {α β : Type} (f : α → Except PyError β) (g : α → β) :
    ∀ l : List α, (∀ a ∈ l, f a = .ok (g a)) → l.mapM f = .ok (l.map g) := by
  intro l h
  induction l with
  | nil => rfl
  | cons a l ih =>
    rw [List.mapM_cons, h a (List.mem_cons_self a l),
      ih (fun a ha => h a (List.mem_cons_of_mem _ ha))]
    rfl

theorem lookup_map_self {α β : Type} [DecidableEq α] (h : α → β) :
    ∀ (l : List α) (v : α), v ∈ l → (l.map (fun u => (u, h u))).lookup v = some (h v) := by
  intro l
  induction l with
  | nil => intro v hv; cases hv
  | cons a l ih =>
    intro v hv
    by_cases hva : v = a
    · subst hva
      simp [List.lookup]
    · rcases List.mem_cons.mp hv with rfl | hmem
      · exact absurd rfl hva
      · have hbeq : (v == a) = false := beq_false_of_ne hva
        simp only [List.map_cons, List.lookup, hbeq]
        exact ih v hmem

theorem mem_uniqueFirst_aux (l : List PyVal) :
    ∀ (acc : List PyVal) (v : PyVal), v ∈ acc ∨ v ∈ l →
      v ∈ l.foldl (fun acc x => if x ∈ acc then acc else acc ++ [x]) acc := by
  induction l with
  | nil =>
    intro acc v hv
    rcases hv with h | h
    · exact h
    · cases h
  | cons a l ih =>
    intro acc v hv
    rw [List.foldl_cons]
    rcases hv with h | h
    · refine ih _ v (Or.inl ?_)
      by_cases ha : a ∈ acc
      · rw [if_pos ha]; exact h
      · rw [if_neg ha]; exact List.mem_append_left _ h
    · rcases List.mem_cons.mp h with rfl | hmem
      · refine ih _ v (Or.inl ?_)
        by_cases ha : v ∈ acc
        · rw [if_pos ha]; exact ha
        · rw [if_neg ha]; exact List.mem_append_right _ (List.mem_singleton.mpr rfl)
      · exact ih _ v (Or.inr hmem)

theorem mem_uniqueFirst (l : List PyVal) (v : PyVal) (hv : v ∈ l) : v ∈ uniqueFirst l :=
  mem_uniqueFirst_aux l [] v (Or.inr hv)

theorem getCol_setCol_self (df : DataFrame) (n : String) (vals : List PyVal) :
    getCol (setCol df n vals) n = some vals := by
  induction df with
  | nil => simp [getCol, setCol, List.lookup]
  | cons p rest ih =>
    obtain ⟨m, v⟩ := p
    unfold setCol
    by_cases hmn : m = n
    · rw [if_pos hmn]
      simp [getCol, List.lookup]
    · rw [if_neg hmn]
      have hbeq : (n == m) = false := beq_false_of_ne (fun h => hmn h.symm)
      simp only [getCol, List.lookup, hbeq]
      exact ih

theorem getCol_setCol_other (df : DataFrame) (n : String) (vals : List PyVal) (k : String)
    (hk : k ≠ n) : getCol (setCol df n vals) k = getCol df k := by
  induction df with
  | nil =>
    have hbeq : (k == n) = false := beq_false_of_ne hk
    simp [getCol, setCol, List.lookup, hbeq]
  | cons p rest ih =>
    obtain ⟨m, v⟩ := p
    unfold setCol
    by_cases hmn : m = n
    · rw [if_pos hmn]
      subst hmn
      have hbeq : (k == m) = false := beq_false_of_ne hk
      simp [getCol, List.lookup, hbeq]
    · rw [if_neg hmn]
      by_cases hkm : k = m
      · subst hkm
        simp [getCol, List.lookup]
      · have hbeq : (k == m) = false := beq_false_of_ne hkm
        simp only [getCol, List.lookup, hbeq]
        exact ih

theorem fbm_eval_vvv :
    find_best_match (mkRegionMatcher [] (some [strToCodes "ввв"]) none) none none 65
      (.pyStr (strToCodes "ввв")) = .ok ((some (strToCodes "ввв"), some 100), []) := by
  have hpe : (mkRegionMatcher [] (some [strToCodes "ввв"]) none).preprocessed_etalon =
      [(strToCodes "ввв", strToCodes "ввв", strToCodes "ввв")] := by decide
  have hproc : _process_input (mkRegionMatcher [] (some [strToCodes "ввв"]) none)
      (.pyStr (strToCodes "ввв")) = (strToCodes "ввв", strToCodes "ввв") := by decide
  have hts : fuzzTokenSetRatio (strToCodes "ввв") (strToCodes "ввв") = 100 := by decide
  simp only [find_best_match, scanBest, hpe, hproc, List.foldl_cons, List.foldl_nil,
    entryScore, fuzzRatio_self, hts, Option.getD_none]
  norm_num

theorem fbmPair_eval_vvv :
    fbmPair (mkRegionMatcher [] (some [strToCodes "ввв"]) none) none none 65
      (.pyStr (strToCodes "ввв")) = (some (strToCodes "ввв"), some 100) := by
  unfold fbmPair
  rw [fbm_eval_vvv]

theorem uniqueFirst_subset_aux (l : List PyVal) :
    ∀ (acc : List PyVal) (v : PyVal),
      v ∈ l.foldl (fun acc x => if x ∈ acc then acc else acc ++ [x]) acc →
      v ∈ acc ∨ v ∈ l := by
  induction l with
  | nil => intro acc v hv; exact Or.inl hv
  | cons a l ih =>
    intro acc v hv
    rw [List.foldl_cons] at hv
    rcases ih _ v hv with h | h
    · by_cases ha : a ∈ acc
      · rw [if_pos ha] at h
        exact Or.inl h
      · rw [if_neg ha] at h
        rcases List.mem_append.mp h with h | h
        · exact Or.inl h
        · exact Or.inr (List.mem_cons.mpr (Or.inl (List.mem_singleton.mp h)))
    · exact Or.inr (List.mem_cons_of_mem a h)

theorem mem_of_mem_uniqueFirst (l : List PyVal) (v : PyVal) (hv : v ∈ uniqueFirst l) :
    v ∈ l := by
  rcases uniqueFirst_subset_aux l [] v hv with h | h
  · cases h
  · exact h

theorem getD_const {α β : Type} (c : β) :
    ∀ (l : List α) (i : Nat), (l.map (fun _ => c)).getD i c = c := by
  intro l
  induction l with
  | nil => intro i; rfl
  | cons a l ih =>
    intro i
    cases i with
    | zero => rfl
    | succ j => exact ih j

theorem getCol_setFieldCols_not_mem (col : List PyVal) (mp : List (PyVal × List PyVal)) :
    ∀ (fs : List String) (i : Nat) (df : DataFrame) (k : String), k ∉ fs →
      getCol (setFieldCols col mp fs i df) k = getCol df k := by
  intro fs
  induction fs with
  | nil => intro i df k _; rfl
  | cons f fs ih =>
    intro i df k hk
    have hne1 : k ≠ f := fun h => hk (h ▸ List.mem_cons_self f fs)
    have hns : k ∉ fs := fun h => hk (List.mem_cons_of_mem f h)
    rw [setFieldCols, ih (i + 1) _ k hns, getCol_setCol_other _ _ _ _ hne1]

theorem getCol_setFieldCols_mem (col : List PyVal) (mp : List (PyVal × List PyVal))
    (hcell : ∀ v ∈ col, ∀ i, (((mp.lookup v).getD []).getD i PyVal.pyNone) = PyVal.pyNone) :
    ∀ (fs : List String) (i : Nat) (df : DataFrame) (f : String), f ∈ fs →
      getCol (setFieldCols col mp fs i df) f = some (col.map (fun _ => PyVal.pyNone)) := by
  intro fs
  induction fs with
  | nil => intro i df f hf; cases hf
  | cons f0 fs ih =>
    intro i df f hf
    rw [setFieldCols]
    by_cases hmem : f ∈ fs
    · exact ih (i + 1) _ f hmem
    · have hf0 : f = f0 := by
        rcases List.mem_cons.mp hf with h | h
        · exact h
        · exact absurd h hmem
      subst hf0
      rw [getCol_setFieldCols_not_mem col mp fs (i + 1) _ f hmem, getCol_setCol_self]
      refine congrArg some (List.map_congr_left ?_)
      intro v hv
      exact hcell v hv i

theorem mapM_singleton {β : Type} (f : PyVal → Except PyError β) (a : PyVal) (b : β)
    (h : f a = .ok b) : [a].mapM f = .ok [b] := by
  rw [List.mapM_cons, h, List.mapM_nil]
  rfl

theorem mdf_eval_vvv :
    match_dataframe (mkRegionMatcher [] (some [strToCodes "ввв"]) none)
      [("region", [PyVal.pyStr (strToCodes "ввв")]), ("ter", [PyVal.pyStr (strToCodes "ггг")])]
      "region" none none 65 =
    .ok [("region", [PyVal.pyStr (strToCodes "ввв")]), ("ter", [PyVal.pyStr (strToCodes "ввв")]),
         ("levenshtein_score", [PyVal.pyRat 100])] := by
  have hcol : getCol [("region", [PyVal.pyStr (strToCodes "ввв")]),
      ("ter", [PyVal.pyStr (strToCodes "ггг")])] "region" =
      some [PyVal.pyStr (strToCodes "ввв")] := by decide
  have hu : uniqueFirst [PyVal.pyStr (strToCodes "ввв")] = [PyVal.pyStr (strToCodes "ввв")] := by
    decide
  have hbm : buildMapping (mkRegionMatcher [] (some [strToCodes "ввв"]) none) none none 65
      (uniqueFirst [PyVal.pyStr (strToCodes "ввв")]) =
      .ok [(PyVal.pyStr (strToCodes "ввв"), (some (strToCodes "ввв"), (100 : ℚ)))] := by
    rw [hu]
    unfold buildMapping
    apply mapM_singleton
    simp only [fbm_eval_vvv]
    rfl
  unfold match_dataframe
  simp only [hcol, hbm, Except.map]
  rfl

/-- Claim C9, counterexample: a frame whose input column `region` coexists with
a pre-existing column named `ter` is not left unchanged by `match_dataframe` —
the pre-existing `ter` data is overwritten by the match results. -/
theorem c9_inplace_counterexample :
    getCol [("region", [PyVal.pyStr (strToCodes "ввв")]), ("ter", [PyVal.pyStr (strToCodes "ггг")])]
      "ter" = some [PyVal.pyStr (strToCodes "ггг")] ∧
    match_dataframe (mkRegionMatcher [] (some [strToCodes "ввв"]) none)
      [("region", [PyVal.pyStr (strToCodes "ввв")]), ("ter", [PyVal.pyStr (strToCodes "ггг")])]
      "region" none none 65 =
      .ok [("region", [PyVal.pyStr (strToCodes "ввв")]), ("ter", [PyVal.pyStr (strToCodes "ввв")]),
           ("levenshtein_score", [PyVal.pyRat 100])] ∧
    getCol [("region", [PyVal.pyStr (strToCodes "ввв")]), ("ter", [PyVal.pyStr (strToCodes "ввв")]),
           ("levenshtein_score", [PyVal.pyRat 100])] "ter" =
      some [PyVal.pyStr (strToCodes "ввв")] ∧
    some [PyVal.pyStr (strToCodes "ввв")] ≠ some [PyVal.pyStr (strToCodes "ггг")] :=
  ⟨by decide, mdf_eval_vvv, by decide, by decide⟩

/-- Claim C9, amended: the adapters write their output columns into the frame
in place (replacing a column of that name when present, appending it
otherwise), and every column whose name is not among the written output names
is left unchanged; columns named `ter`, `levenshtein_score`, the attached
field, or one of the attached fields may be overwritten. -/
theorem c9_columns_preserved_amended (m : RegionMatcher) (df : DataFrame) (cn : String)
    (w : Option Weights) (aw : Option ApproachWeights) (th : ℚ)
    (data : List EtalonRecord) (fld : String) (flds : List String) (k : String) :
    (∀ df', match_dataframe m df cn w aw th = .ok df' →
      k ≠ "ter" → k ≠ "levenshtein_score" → getCol df' k = getCol df k) ∧
    (∀ df', attach_field data m df cn fld w aw th = .ok df' →
      k ≠ fld → getCol df' k = getCol df k) ∧
    (∀ df', attach_fields data m df cn flds w aw th = .ok df' →
      k ∉ flds → getCol df' k = getCol df k) := by
  refine ⟨?_, ?_, ?_⟩
  · intro df' h hk1 hk2
    unfold match_dataframe at h
    cases hcol : getCol df cn with
    | none =>
      rw [hcol] at h
      exact absurd h (by simp)
    | some col =>
      simp only [hcol] at h
      cases hbm : buildMapping m w aw th (uniqueFirst col) with
      | error e =>
        rw [hbm] at h
        exact absurd h (by simp [Except.map])
      | ok mp =>
        rw [hbm] at h
        simp only [Except.map] at h
        injection h with h
        rw [← h, getCol_setCol_other _ _ _ _ hk2, getCol_setCol_other _ _ _ _ hk1]
  · intro df' h hk
    unfold attach_field at h
    cases hcol : getCol df cn with
    | none =>
      rw [hcol] at h
      exact absurd h (by simp)
    | some col =>
      simp only [hcol] at h
      cases hbm : buildFieldMapping data m w aw th fld (uniqueFirst col) with
      | error e =>
        rw [hbm] at h
        exact absurd h (by simp [Except.map])
      | ok mp =>
        rw [hbm] at h
        simp only [Except.map] at h
        injection h with h
        rw [← h, getCol_setCol_other _ _ _ _ hk]
  · intro df' h hk
    unfold attach_fields at h
    cases hcol : getCol df cn with
    | none =>
      rw [hcol] at h
      exact absurd h (by simp)
    | some col =>
      simp only [hcol] at h
      cases hbm : buildFieldsMapping data m w aw th flds (uniqueFirst col) with
      | error e =>
        rw [hbm] at h
        exact absurd h (by simp [Except.map])
      | ok mp =>
        rw [hbm] at h
        simp only [Except.map] at h
        injection h with h
        rw [← h, getCol_setFieldCols_not_mem col mp flds 0 df k hk]

/-- Witness for C9's amended theorem: the `region` input column survives a
`match_dataframe` call unchanged. -/
theorem c9_columns_preserved_amended_witness :
    getCol [("region", [PyVal.pyStr (strToCodes "ввв")]), ("ter", [PyVal.pyStr (strToCodes "ввв")]),
           ("levenshtein_score", [PyVal.pyRat 100])] "region" =
      getCol [("region", [PyVal.pyStr (strToCodes "ввв")]),
              ("ter", [PyVal.pyStr (strToCodes "ггг")])] "region" :=
  (c9_columns_preserved_amended (mkRegionMatcher [] (some [strToCodes "ввв"]) none)
    [("region", [PyVal.pyStr (strToCodes "ввв")]), ("ter", [PyVal.pyStr (strToCodes "ггг")])]
    "region" none none 65 [] "okato" [] "region").1
    [("region", [PyVal.pyStr (strToCodes "ввв")]), ("ter", [PyVal.pyStr (strToCodes "ввв")]),
     ("levenshtein_score", [PyVal.pyRat 100])]
    mdf_eval_vvv (by decide) (by decide)

/-- Claim C10: `attach_field` and `attach_fields` resolve attribute values
against the module-level reference dataset, not against the matcher's own
reference set: when no record of that dataset carries the matched name of any
input value, every requested field column is filled with `None` for every row,
and neither call raises. -/
theorem c10_missing_module_record_absent (data : List EtalonRecord) (m : RegionMatcher)
    (df : DataFrame) (cn fld : String) (flds : List String) (w : Option Weights)
    (aw : Option ApproachWeights) (th : ℚ) (col : List PyVal)
    (hcol : getCol df cn = some col) (hne : m.preprocessed_etalon ≠ [])
    (habs : ∀ r ∈ data, ∀ v ∈ col, (fbmPair m w aw th v).1 ≠ some r.name_rus) :
    (∃ df', attach_field data m df cn fld w aw th = .ok df' ∧
      getCol df' fld = some (col.map (fun _ => PyVal.pyNone))) ∧
    (∃ df', attach_fields data m df cn flds w aw th = .ok df' ∧
      ∀ f ∈ flds, getCol df' f = some (col.map (fun _ => PyVal.pyNone))) := by
  have hfr : ∀ v ∈ col, findRecord data (fbmPair m w aw th v).1 = none := by
    intro v hv
    unfold findRecord
    rw [List.find?_eq_none]
    intro r hr
    simp only [decide_eq_true_eq]
    exact habs r hr v hv
  have hav : ∀ v ∈ col, attachValue data fld (fbmPair m w aw th v) = PyVal.pyNone := by
    intro v hv
    unfold attachValue
    cases hq : (fbmPair m w aw th v).2 with
    | none => rfl
    | some q => simp only [hfr v hv]
  have havs : ∀ v ∈ col, attachValues data flds (fbmPair m w aw th v) =
      flds.map (fun _ => PyVal.pyNone) := by
    intro v hv
    unfold attachValues
    cases hq : (fbmPair m w aw th v).2 with
    | none => rfl
    | some q => simp only [hfr v hv]
  constructor
  · have hbm : buildFieldMapping data m w aw th fld (uniqueFirst col) =
        .ok ((uniqueFirst col).map (fun u => (u, PyVal.pyNone))) := by
      unfold buildFieldMapping
      apply mapM_ok
      intro u hu
      obtain ⟨d, hd⟩ := fbm_ok m w aw th u hne
      rw [hd]
      simp only [Except.map, hav u (mem_of_mem_uniqueFirst col u hu)]
    unfold attach_field
    simp only [hcol, hbm, Except.map]
    refine ⟨_, rfl, ?_⟩
    rw [getCol_setCol_self]
    refine congrArg some (List.map_congr_left ?_)
    intro v hv
    rw [lookup_map_self (fun _ => PyVal.pyNone) (uniqueFirst col) v (mem_uniqueFirst col v hv)]
    rfl
  · have hbm : buildFieldsMapping data m w aw th flds (uniqueFirst col) =
        .ok ((uniqueFirst col).map (fun u => (u, flds.map (fun _ => PyVal.pyNone)))) := by
      unfold buildFieldsMapping
      apply mapM_ok
      intro u hu
      obtain ⟨d, hd⟩ := fbm_ok m w aw th u hne
      rw [hd]
      simp only [Except.map, havs u (mem_of_mem_uniqueFirst col u hu)]
    unfold attach_fields
    simp only [hcol, hbm, Except.map]
    refine ⟨_, rfl, ?_⟩
    intro f hf
    refine getCol_setFieldCols_mem col _ ?_ flds 0 df f hf
    intro v hv i
    rw [lookup_map_self (fun _ => flds.map (fun _ => PyVal.pyNone)) (uniqueFirst col) v
      (mem_uniqueFirst col v hv)]
    exact getD_const PyVal.pyNone flds i

/-- Witness for C10: the matched name `"ввв"` is absent from a module dataset
holding only a record for `"ггг"`, so the attached `okato` (and both requested
fields) come back `None`. -/
theorem c10_missing_module_record_absent_witness :
    getCol [("region", [PyVal.pyStr (strToCodes "ввв")])] "region" =
      some [PyVal.pyStr (strToCodes "ввв")] ∧
    (mkRegionMatcher [] (some [strToCodes "ввв"]) none).preprocessed_etalon ≠ [] ∧
    (∀ r ∈ [EtalonRecord.mk (strToCodes "ггг") [("okato", PyVal.pyStr (strToCodes "11"))]],
      ∀ v ∈ [PyVal.pyStr (strToCodes "ввв")],
        (fbmPair (mkRegionMatcher [] (some [strToCodes "ввв"]) none) none none 65 v).1 ≠
          some r.name_rus) ∧
    ((∃ df', attach_field [EtalonRecord.mk (strToCodes "ггг")
          [("okato", PyVal.pyStr (strToCodes "11"))]]
        (mkRegionMatcher [] (some [strToCodes "ввв"]) none)
        [("region", [PyVal.pyStr (strToCodes "ввв")])] "region" "okato" none none 65 = .ok df' ∧
      getCol df' "okato" =
        some ([PyVal.pyStr (strToCodes "ввв")].map (fun _ => PyVal.pyNone))) ∧
     (∃ df', attach_fields [EtalonRecord.mk (strToCodes "ггг")
          [("okato", PyVal.pyStr (strToCodes "11"))]]
        (mkRegionMatcher [] (some [strToCodes "ввв"]) none)
        [("region", [PyVal.pyStr (strToCodes "ввв")])] "region" ["name_eng", "okato"]
        none none 65 = .ok df' ∧
      ∀ f ∈ ["name_eng", "okato"], getCol df' f =
        some ([PyVal.pyStr (strToCodes "ввв")].map (fun _ => PyVal.pyNone)))) := by
  have habs : ∀ r ∈ [EtalonRecord.mk (strToCodes "ггг")
        [("okato", PyVal.pyStr (strToCodes "11"))]],
      ∀ v ∈ [PyVal.pyStr (strToCodes "ввв")],
        (fbmPair (mkRegionMatcher [] (some [strToCodes "ввв"]) none) none none 65 v).1 ≠
          some r.name_rus := by
    intro r hr v hv
    rw [List.mem_singleton] at hr hv
    subst hr
    subst hv
    rw [fbmPair_eval_vvv]
    decide
  exact ⟨by decide, by decide, habs,
    c10_missing_module_record_absent
      [EtalonRecord.mk (strToCodes "ггг") [("okato", PyVal.pyStr (strToCodes "11"))]]
      (mkRegionMatcher [] (some [strToCodes "ввв"]) none)
      [("region", [PyVal.pyStr (strToCodes "ввв")])] "region" "okato" ["name_eng", "okato"]
      none none 65 [PyVal.pyStr (strToCodes "ввв")] (by decide) (by decide) habs⟩
